import Mathlib

/-!
Shallow embedding of the rewrite-driven term simplifier in
`src/library/simplifier/simplifier.cpp` (class `simplifier_fn`), together with
proofs about the embedded code.

Modelling conventions:
* Expressions are the tagged variant described by the source's `expr` facade.
  An application node carries its argument list (`arg(e, 0)` is the function).
  The `let` type annotation is never consulted by the simplifier and is
  omitted from the embedding.
* All external collaborators (kernel type checker, higher-order matcher,
  equality-theorem builders, free-variable utilities, maximal sharing,
  environment object store, the expression total order `is_lt`) are fields of
  an `Oracle` record; the embedded code is parametric in the oracle.
* C++ exceptions become an `Outc.err` outcome; since destructors of the scoped
  guards (`flet`, `freset`, `set_context`, `updt_rule_set`) run while an
  exception propagates, every embedded function returns the post-unwinding
  state alongside the outcome.
* Recursion of the driver `simplify` is indexed by explicit fuel; helpers
  receive the partially applied driver.  `Outc.fuelOut` marks fuel exhaustion,
  an artifact of the embedding (shown unreachable for sufficient fuel).
* `is_eqp` (pointer equality on shared expression nodes) is modelled by
  structural equality, its semantic content.
* `find_match` of a rewrite-rule set indexes candidate rules by head symbol;
  the embedding iterates all rules of the set in order with the same stateful
  callback, which is observationally equal because the callback starts with
  the higher-order match.
-/

/-- Hierarchical names (`util/name`): a string atom or a numbered child. -/
inductive NameE where
  | mkStr (s : String)
  | mkNum (p : NameE) (n : Nat)
  deriving DecidableEq

/-- Expressions, mirroring the source's `expr` kinds.  `value` carries an
opaque index standing for a semantic attachment. -/
inductive Expr where
  | var (idx : Nat)
  | const (n : NameE)
  | type
  | metavar
  | value (k : Nat)
  | app (args : List Expr)
  | lam (n : NameE) (d : Expr) (b : Expr)
  | pi (n : NameE) (d : Expr) (b : Expr)
  | letE (n : NameE) (v : Expr) (b : Expr)

mutual
/-- Structural equality on expressions (the semantic content of the C++
structural `==` and of `is_eqp` up to sharing). -/
def Expr.beq : Expr → Expr → Bool
  | .var i, .var j => i == j
  | .const n, .const m => n == m
  | .type, .type => true
  | .metavar, .metavar => true
  | .value k, .value l => k == l
  | .app as, .app bs => Expr.beqList as bs
  | .lam n d b, .lam n' d' b' => n == n' && Expr.beq d d' && Expr.beq b b'
  | .pi n d b, .pi n' d' b' => n == n' && Expr.beq d d' && Expr.beq b b'
  | .letE n v b, .letE n' v' b' => n == n' && Expr.beq v v' && Expr.beq b b'
  | _, _ => false
def Expr.beqList : List Expr → List Expr → Bool
  | [], [] => true
  | a :: as, b :: bs => Expr.beq a b && Expr.beqList as bs
  | _, _ => false
end

instance : BEq Expr := ⟨Expr.beq⟩

/-- Default-constructed expression (the C++ null `expr()`); used for buffer
slots that the source leaves default-initialized. -/
def exprDefault : Expr := Expr.type

/-- Argument access `arg(e, i)` (asserted in-range in the source). -/
def argE (e : Expr) (i : Nat) : Expr :=
  match e with
  | .app as => as.getD i exprDefault
  | _ => exprDefault

/-- Argument count `num_args(e)`. -/
def numArgs (e : Expr) : Nat :=
  match e with
  | .app as => as.length
  | _ => 0

def appArgs (e : Expr) : List Expr :=
  match e with
  | .app as => as
  | _ => []

def isApp : Expr → Bool
  | .app _ => true
  | _ => false

def isLambda : Expr → Bool
  | .lam .. => true
  | _ => false

def isPiE : Expr → Bool
  | .pi .. => true
  | _ => false

/-- `is_var(e, 0)`. -/
def isVar0 : Expr → Bool
  | .var 0 => true
  | _ => false

/-- Binder name of a lambda or Pi (`abst_name`). -/
def abstName : Expr → NameE
  | .lam n _ _ => n
  | .pi n _ _ => n
  | _ => NameE.mkStr ""

/-- Binder domain of a lambda or Pi (`abst_domain`). -/
def abstDomain : Expr → Expr
  | .lam _ d _ => d
  | .pi _ d _ => d
  | _ => exprDefault

/-- Binder body of a lambda or Pi (`abst_body`). -/
def abstBody : Expr → Expr
  | .lam _ _ b => b
  | .pi _ _ b => b
  | _ => exprDefault

def letValue : Expr → Expr
  | .letE _ v _ => v
  | _ => exprDefault

def letBody : Expr → Expr
  | .letE _ _ b => b
  | _ => exprDefault

/-- Kernel `mk_app`: builds an application, flattening a nested application
head so that the head of an `app` node is never itself an `app`.  The
zero/one-argument cases never arise in the source and are given the obvious
degenerate meaning. -/
def mkAppE (args : List Expr) : Expr :=
  match args with
  | [] => exprDefault
  | [a] => a
  | (Expr.app as) :: rest => Expr.app (as ++ rest)
  | _ => Expr.app args

/-- `update_app(e, 0, v)`: replace argument 0. -/
def updateApp0 (e : Expr) (v : Expr) : Expr :=
  match e with
  | .app (_ :: rest) => .app (v :: rest)
  | _ => e

/-- `mk_app_prefix(i, e)` on an application's argument buffer: the application
of the first `i` entries (`i ≥ 1`). -/
def mkAppPre (i : Nat) (args : List Expr) : Expr :=
  if i == 1 then args.getD 0 exprDefault else mkAppE (args.take i)

/-- `is_value`: only semantic attachments count as values. -/
def isValueE : Expr → Bool
  | .value _ => true
  | _ => false

/-- Environment object (result of `environment::find_object`): the simplifier
consults only `is_builtin` and `get_value`. -/
structure EnvObj where
  builtin : Bool
  objValue : Expr

/-- A rewrite rule (`rewrite_rule`): fully quantified conditional equation
`ceq`, its proof, the rule's `lhs`/`rhs` patterns, argument count and the
permutation flag. -/
structure Rule where
  numA : Nat
  lhs : Expr
  rhs : Expr
  ceq : Expr
  proof : Expr
  is_perm : Bool

/-- Context information of one congruence-theorem argument
(`congr_theorem_info::context`). -/
structure CongrCtx where
  arg_pos : Nat
  use_new_val : Bool
  is_pos_dep : Bool

/-- Per-argument information of a congruence theorem
(`congr_theorem_info::arg_info`). -/
structure CongrArgInfo where
  arg_pos : Nat
  simp_arg : Bool
  ctx_info : Option CongrCtx
  pos_at_proof : Nat
  new_pos_at_proof : Option Nat
  proof_pos_at_proof : Option Nat

/-- A congruence theorem (`congr_theorem_info`). -/
structure CongrThm where
  fn : Expr
  proof : Expr
  num_proof_args : Nat
  args : List CongrArgInfo

/-- A rewrite-rule set, observed through its ordered rule list and its
congruence theorems.  `insert` semantics are supplied by the oracle. -/
structure RuleSet where
  rules : List Rule
  congrs : List CongrThm

def emptyRuleSet : RuleSet := ⟨[], []⟩

/-- Typing contexts: ordered stack of (name, domain) entries. -/
def CtxE := List (NameE × Expr)

/-- `extend(ctx, name, domain)`. -/
def extendCtx (ctx : CtxE) (n : NameE) (d : Expr) : CtxE := (n, d) :: ctx

/-- The result carrier (`simplifier_fn::result`). -/
structure Result where
  out : Expr
  pf : Option Expr
  heq_proof : Bool

/-- External collaborators of the simplifier, accessed only through these
interfaces (spec section 1 "OUT OF SCOPE"). -/
structure Oracle where
  /-- `env->imported("heq")`. -/
  hasHeq : Bool
  /-- `env->imported("cast")`. -/
  hasCast : Bool
  /-- Type checker `infer_type(e, ctx)`. -/
  inferType : CtxE → Expr → Expr
  /-- Type checker `is_proposition(e, ctx)`. -/
  isProp : CtxE → Expr → Bool
  /-- Type checker `is_convertible(t1, t2, ctx)`. -/
  isConv : CtxE → Expr → Expr → Bool
  /-- Type checker `is_definitionally_equal(t1, t2, ctx)`. -/
  isDefEq : CtxE → Expr → Expr → Bool
  /-- Type checker `ensure_pi(e, ctx)`. -/
  ensurePi : CtxE → Expr → Expr
  /-- `normalizer(e, ctx, true)`. -/
  normalizeE : CtxE → Expr → Expr
  /-- Higher-order matcher `hop_match(lhs, target, subst, env)`: on success
  the substitution buffer of length `num`. -/
  hopMatch : Expr → Expr → Nat → Option (List (Option Expr))
  /-- The designated expression total order `is_lt(a, b, false)`. -/
  exprLt : Expr → Expr → Bool
  /-- Maximal-sharing function.  Returns a structurally equal graph. -/
  maxShare : Expr → Expr
  /-- Kernel `instantiate(e, n, args)` (also the 1-argument form). -/
  instN : Expr → List Expr → Expr
  /-- `lower_free_vars(e, 1, 1)`. -/
  lower1 : Expr → Expr
  /-- `abstract(e, p)`. -/
  abstract1 : Expr → Expr → Expr
  /-- `has_free_var(e, 0)`. -/
  hasFV0 : Expr → Bool
  /-- `head_beta_reduce(e)`. -/
  headBeta : Expr → Expr
  /-- `pi_body_at(f_type, a)`. -/
  piBodyAt : Expr → Expr → Expr
  /-- Environment object lookup `find_object` (none when undeclared). -/
  findObject : NameE → Option EnvObj
  /-- `should_unfold(obj)` predicate on the (optional) object. -/
  shouldUnfold : Option EnvObj → Bool
  /-- `is_eq(e) || is_neq(e) || is_heq(e)`. -/
  isEqNeqHeq : Expr → Bool
  /-- The kernel constant `True`. -/
  trueE : Expr
  /-- The head constant of `cast` applications. -/
  castC : Expr
  /-- `mk_cast_heq_fn()`. -/
  castHeqFn : Expr
  /-- `mk_not(e)`. -/
  mkNot : Expr → Expr
  /-- `mk_eq(A, a, b)`. -/
  mkEq : Expr → Expr → Expr → Expr
  /-- `mk_refl_th(A, a)`. -/
  mkRefl : Expr → Expr → Expr
  /-- `mk_hrefl_th(A, a)`. -/
  mkHRefl : Expr → Expr → Expr
  /-- `mk_trans_th(A, a, b, c, H1, H2)`. -/
  mkTrans : Expr → Expr → Expr → Expr → Expr → Expr → Expr
  /-- `mk_htrans_th(A, B, C, a, b, c, H1, H2)`. -/
  mkHTrans : Expr → Expr → Expr → Expr → Expr → Expr → Expr → Expr → Expr
  /-- `mk_to_eq_th(A, a, b, H)`. -/
  mkToEq : Expr → Expr → Expr → Expr → Expr
  /-- `mk_to_heq_th(A, a, b, H)`. -/
  mkToHeq : Expr → Expr → Expr → Expr → Expr
  /-- `mk_subst_th(A, a, b, P, H1, H2)`. -/
  mkSubst : Expr → Expr → Expr → Expr → Expr → Expr → Expr
  /-- `mk_congr1_th(A, B, f, new_f, a, H)`. -/
  mkCongr1 : Expr → Expr → Expr → Expr → Expr → Expr → Expr
  /-- `mk_congr2_th(A, B, a, new_a, f, H)`. -/
  mkCongr2 : Expr → Expr → Expr → Expr → Expr → Expr → Expr
  /-- `mk_congr_th(A, B, f, new_f, a, new_a, Hf, Ha)`. -/
  mkCongr : Expr → Expr → Expr → Expr → Expr → Expr → Expr → Expr → Expr
  /-- `mk_hcongr_th(A, A', B, B', f, f', a, a', Hf, Ha)`. -/
  mkHCongr : Expr → Expr → Expr → Expr → Expr → Expr → Expr → Expr → Expr → Expr → Expr
  /-- `mk_eqt_elim_th(d, H)`. -/
  mkEqtElim : Expr → Expr → Expr
  /-- `mk_trivial()`. -/
  mkTrivial : Expr
  /-- `mk_eta_th(A, P, f)`. -/
  mkEta : Expr → Expr → Expr → Expr
  /-- `mk_funext_th(A, P, f, g, H)`. -/
  mkFunext : Expr → Expr → Expr → Expr → Expr → Expr
  /-- `mk_allext_th(A, P, Q, H)`. -/
  mkAllext : Expr → Expr → Expr → Expr → Expr
  /-- Rules produced by `rewrite_rule_set::insert(g_local, fact, proof)`. -/
  insertRules : Expr → Expr → List Rule

/-- The configuration flags read by `set_options` (`simplifier.*`). -/
structure Cfg where
  m_proofs_enabled : Bool
  m_contextual : Bool
  m_single_pass : Bool
  m_beta : Bool
  m_eta : Bool
  m_eval : Bool
  m_unfold : Bool
  m_conditional : Bool
  m_memoize : Bool
  m_max_steps : Nat

/-- The immutable data of a `simplifier_fn` instance: the oracle (environment
and kernel services), the configuration, and the congruence-theorem registry
collected at construction. -/
structure SimpCtx where
  o : Oracle
  cfg : Cfg
  congr_thms : List CongrThm

/-- The mutable fields of `simplifier_fn`. -/
structure SimpState where
  m_ctx : CtxE
  m_rule_sets : List RuleSet
  m_cache : List (Expr × Result)
  m_contextual_depth : Nat
  m_num_steps : Nat

/-- Outcome of an embedded computation: normal return, a thrown exception, or
exhaustion of the embedding's fuel. -/
inductive Outc (α : Type) where
  | ok (a : α)
  | err (msg : String)
  | fuelOut

abbrev MS (α : Type) := Outc α × SimpState

/-- Sequencing with exception/fuel propagation. -/
def bindO {α β : Type} (x : MS α) (k : α → SimpState → MS β) : MS β :=
  match x with
  | (.ok a, st) => k a st
  | (.err m, st) => (.err m, st)
  | (.fuelOut, st) => (.fuelOut, st)

/-- Run a state restoration (a C++ guard destructor) on every exit path. -/
def finallyO {α : Type} (x : MS α) (fin : SimpState → SimpState) : MS α :=
  (x.1, fin x.2)

/-- The type of the partially applied driver given to the helpers. -/
abbrev SimpFn := Expr → SimpState → MS Result

/-- Cache lookup (`expr_map` keyed by structural equality). -/
def lookupC (c : List (Expr × Result)) (e : Expr) : Option Result :=
  match c with
  | [] => none
  | (k, r) :: rest => if k == e then some r else lookupC rest e

/-- Kernel `is_arrow`: a Pi whose body does not depend on the bound variable. -/
def isArrow (S : SimpCtx) (e : Expr) : Bool :=
  match e with
  | .pi _ _ b => !S.o.hasFV0 b
  | _ => false

/-- `is_cast(e)`: an application headed by the `cast` constant (the source
assumes such applications have exactly four arguments). -/
def isCast (S : SimpCtx) (e : Expr) : Bool :=
  match e with
  | .app (c :: rest) => c == S.o.castC && rest.length == 4
  | _ => false

def g_local : NameE := NameE.mkStr "local"
def g_C : NameE := NameE.mkStr "C"
def g_x : NameE := NameE.mkStr "x"
def g_unique : NameE := NameE.mkStr "unique"

/-- `mk_lambda(abst, new_body)`: a lambda with name and domain from `abst`. -/
def mkLambdaOf (abst : Expr) (newBody : Expr) : Expr :=
  Expr.lam (abstName abst) (abstDomain abst) newBody

/-- `translate_eq_proof` (simplifier.cpp:202): convert a proof `H` of
`@eq A a b` into `@eq B a b` via `subst` with a `refl` seed. -/
def translateEqProof (S : SimpCtx) (A a b H B : Expr) : Expr :=
  S.o.mkSubst A a b (Expr.lam g_x A (S.o.mkEq B a (Expr.var 0))) (S.o.mkRefl B a) H

/-- Member `mk_congr1_th` (simplifier.cpp:206). -/
def mkCongr1Th (S : SimpCtx) (f_type f new_f a Heq_f : Expr) : Expr :=
  let A := abstDomain f_type
  let B := S.o.lower1 (abstBody f_type)
  S.o.mkCongr1 A B f new_f a Heq_f

/-- Member `mk_congr2_th` (simplifier.cpp:212). -/
def mkCongr2Th (S : SimpCtx) (ctx : CtxE) (f_type a new_a f Heq_a : Expr) : Expr :=
  let A := abstDomain f_type
  let B := S.o.lower1 (abstBody f_type)
  let a_type := S.o.inferType ctx a
  let Heq_a' := if !S.o.isDefEq ctx A a_type then translateEqProof S a_type a new_a Heq_a A else Heq_a
  S.o.mkCongr2 A B a new_a f Heq_a'

/-- Member `mk_congr_th` (simplifier.cpp:221). -/
def mkCongrThm (S : SimpCtx) (ctx : CtxE) (f_type f new_f a new_a Heq_f Heq_a : Expr) : Expr :=
  let A := abstDomain f_type
  let B := S.o.lower1 (abstBody f_type)
  let a_type := S.o.inferType ctx a
  let Heq_a' := if !S.o.isDefEq ctx A a_type then translateEqProof S a_type a new_a Heq_a A else Heq_a
  S.o.mkCongr A B f new_f a new_a Heq_f Heq_a'

/-- Member `mk_hcongr_th` (simplifier.cpp:231); `none` when the domains cannot
be reconciled. -/
def mkHCongrTh (S : SimpCtx) (ctx : CtxE) (f_type new_f_type f new_f a new_a Heq_f Heq_a : Expr)
    (Heq_a_is_heq : Bool) : Option Expr :=
  let A := abstDomain f_type
  let new_A := abstDomain new_f_type
  let a_type := S.o.inferType ctx a
  let new_a_type := S.o.inferType ctx new_a
  if !S.o.isConv ctx new_a_type new_A then none
  else
    let step :=
      if !S.o.isDefEq ctx A a_type || !S.o.isDefEq ctx new_A new_a_type then
        if Heq_a_is_heq then
          if S.o.isDefEq ctx a_type new_a_type && S.o.isDefEq ctx A new_A then
            some (translateEqProof S a_type a new_a (S.o.mkToEq a_type a new_a Heq_a) A, false)
          else none
        else some (translateEqProof S a_type a new_a Heq_a A, false)
      else some (Heq_a, Heq_a_is_heq)
    match step with
    | none => none
    | some (h, hIsHeq) =>
      let h' := if !hIsHeq then S.o.mkToHeq A a new_a h else h
      some (S.o.mkHCongr A new_A (mkLambdaOf f_type (abstBody f_type))
              (mkLambdaOf new_f_type (abstBody new_f_type)) f new_f a new_a Heq_f h')

/-- `mk_trans_result(a, b_res, c, H_bc)` (simplifier.cpp:265). -/
def mkTransResult4 (S : SimpCtx) (ctx : CtxE) (a : Expr) (b_res : Result) (c H_bc : Expr) :
    Result :=
  if S.cfg.m_proofs_enabled then
    match b_res.pf with
    | none => ⟨c, some H_bc, false⟩
    | some hab =>
      let b := b_res.out
      if b_res.heq_proof then
        let b_type := S.o.inferType ctx b
        ⟨c, some (S.o.mkHTrans (S.o.inferType ctx a) b_type b_type a b c hab
              (S.o.mkToHeq b_type b c H_bc)), true⟩
      else
        ⟨c, some (S.o.mkTrans (S.o.inferType ctx a) a b c hab H_bc), false⟩
  else ⟨c, none, false⟩

/-- `mk_trans_result(a, b_res, c_res)` (simplifier.cpp:296). -/
def mkTransResult3 (S : SimpCtx) (ctx : CtxE) (a : Expr) (b_res c_res : Result) : Result :=
  if S.cfg.m_proofs_enabled then
    match b_res.pf with
    | none => c_res
    | some hab =>
      match c_res.pf with
      | none => ⟨c_res.out, some hab, b_res.heq_proof⟩
      | some hbc =>
        let heq := b_res.heq_proof || c_res.heq_proof
        let b := b_res.out
        let c := c_res.out
        if heq then
          let a_type := S.o.inferType ctx a
          let b_type := S.o.inferType ctx b
          let c_type := S.o.inferType ctx c
          let H_ab := if !b_res.heq_proof then S.o.mkToHeq a_type a b hab else hab
          let H_bc := if !c_res.heq_proof then S.o.mkToHeq b_type b c hbc else hbc
          ⟨c, some (S.o.mkHTrans a_type b_type c_type a b c H_ab H_bc), true⟩
        else
          ⟨c, some (S.o.mkTrans (S.o.inferType ctx a) a b c hab hbc), false⟩
  else c_res

/-- `ensure_homogeneous(lhs, rhs)` (simplifier.cpp:396): `none` models the
`false` return, otherwise the (possibly `to_eq`-rewritten) result. -/
def ensureHomogeneous (S : SimpCtx) (ctx : CtxE) (lhs : Expr) (rhs : Result) : Option Result :=
  if rhs.heq_proof then
    match rhs.pf with
    | some p =>
      let lhs_type := S.o.inferType ctx lhs
      let rhs_type := S.o.inferType ctx rhs.out
      if S.o.isDefEq ctx lhs_type rhs_type then
        some ⟨rhs.out, some (S.o.mkToEq lhs_type lhs rhs.out p), false⟩
      else none
    | none => none
  else some rhs

/-- `get_proof(rhs)` (simplifier.cpp:414): the carried proof, or reflexivity
`refl(infer_type(out), out)` when the proof was elided. -/
def getProofE (S : SimpCtx) (ctx : CtxE) (rhs : Result) : Expr :=
  match rhs.pf with
  | some p => p
  | none => S.o.mkRefl (S.o.inferType ctx rhs.out) rhs.out

/-- `evaluate_app(e)` (simplifier.cpp:638). -/
def evaluateApp (S : SimpCtx) (e : Expr) : Bool :=
  if !S.cfg.m_eval then false
  else if (appArgs e).tail.all isValueE then true
  else
    let n := numArgs e
    S.o.isEqNeqHeq e && isValueE (argE e (n - 2)) && isValueE (argE e (n - 1))

/-- `is_eta_target(e)` (simplifier.cpp:852). -/
def isEtaTarget (S : SimpCtx) (e : Expr) : Bool :=
  match e with
  | .lam _ _ b =>
    isApp b && isVar0 (argE b (numArgs b - 1)) &&
      ((appArgs b).dropLast.all fun a => !S.o.hasFV0 a)
  | _ => false

/-- `found_all_args` (simplifier.cpp:693): all substitution entries present. -/
def foundAllArgs (subst : List (Option Expr)) : Option (List Expr) :=
  match subst with
  | [] => some []
  | none :: _ => none
  | some v :: rest =>
    match foundAllArgs rest with
    | some vs => some (v :: vs)
    | none => none

/-- The cast short-circuit's result construction (simplifier.cpp:357-377),
for `e = cast A B H a` whose argument simplified to `ra`. -/
def castResult (S : SimpCtx) (ctx : CtxE) (e A B : Expr) (ra : Result) : Result :=
  let a := argE e 4
  let c := ra.out
  match ra.pf with
  | some Hac =>
    if !ra.heq_proof then
      ⟨c, some (S.o.mkHTrans B A A e a c (updateApp0 e S.o.castHeqFn) (S.o.mkToHeq B a c Hac)),
        true⟩
    else
      ⟨c, some (S.o.mkHTrans B A (S.o.inferType ctx c) e a c (updateApp0 e S.o.castHeqFn) Hac),
        true⟩
  | none => ⟨c, some (updateApp0 e S.o.castHeqFn), true⟩

/-- Accumulator of `simplify_app_default`'s argument loop: the parallel
buffers `new_args`, `proofs`, `f_types`, `new_f_types`, `heq_proofs` and the
`changed` flag (simplifier.cpp:506-510). -/
structure SadAcc where
  new_args : List Expr
  proofs : List (Option Expr)
  f_types : List Expr
  new_f_types : List Expr
  heq_proofs : List Bool
  changed : Bool

/-- Outcome of the proof-construction phase of `simplify_app_default`
(simplifier.cpp:565-624): all sub-proofs reflexive, an irrecoverable
`mk_hcongr_th` failure, or the built proof with its heterogeneity flag. -/
inductive CongrPrOut where
  | allRefl
  | failedPr
  | built (pr : Expr) (heq : Bool)

/-- Index of the first non-reflexive sub-proof (simplifier.cpp:567-570). -/
def firstSome (proofs : List (Option Expr)) : Nat :=
  match proofs with
  | [] => 0
  | some _ :: _ => 0
  | none :: rest => firstSome rest + 1

/-- The `for (; i < num; i++)` proof-extension loop (simplifier.cpp:592-623);
`k` is the number of remaining iterations, `i` the current index. -/
def sadProofLoop (S : SimpCtx) (ctx : CtxE) (e : Expr) (new_args : List Expr)
    (proofs : List (Option Expr)) (f_types new_f_types : List Expr) (heq_proofs : List Bool) :
    Nat → Nat → Expr → Bool → CongrPrOut
  | 0, _, pr, heq_pf => .built pr heq_pf
  | k + 1, i, pr, heq_pf =>
    let f := mkAppPre i (appArgs e)
    let new_f := mkAppPre i new_args
    let ft1 := f_types.getD (i - 1) exprDefault
    let nft1 := new_f_types.getD (i - 1) exprDefault
    match proofs.getD i none with
    | some pr_i =>
      if S.o.hasHeq && heq_proofs.getD i false then
        let pr' := if !heq_pf then S.o.mkToHeq (f_types.getD i exprDefault) f new_f pr else pr
        match mkHCongrTh S ctx ft1 nft1 f new_f (argE e i) (new_args.getD i exprDefault)
            pr' pr_i true with
        | none => .failedPr
        | some pr2 =>
          sadProofLoop S ctx e new_args proofs f_types new_f_types heq_proofs k (i + 1) pr2 true
      else if heq_pf then
        match mkHCongrTh S ctx ft1 nft1 f new_f (argE e i) (new_args.getD i exprDefault)
            pr pr_i (heq_proofs.getD i false) with
        | none => .failedPr
        | some pr2 =>
          sadProofLoop S ctx e new_args proofs f_types new_f_types heq_proofs k (i + 1) pr2 heq_pf
      else
        sadProofLoop S ctx e new_args proofs f_types new_f_types heq_proofs k (i + 1)
          (mkCongrThm S ctx ft1 f new_f (argE e i) (new_args.getD i exprDefault) pr pr_i) heq_pf
    | none =>
      if heq_pf then
        match mkHCongrTh S ctx ft1 nft1 f new_f (argE e i) (argE e i) pr
            (S.o.mkRefl (S.o.inferType ctx (argE e i)) (argE e i)) false with
        | none => .failedPr
        | some pr2 =>
          sadProofLoop S ctx e new_args proofs f_types new_f_types heq_proofs k (i + 1) pr2 heq_pf
      else
        sadProofLoop S ctx e new_args proofs f_types new_f_types heq_proofs k (i + 1)
          (mkCongr1Th S ft1 f new_f (argE e i) pr) heq_pf

/-- The cumulative congruence-proof construction of `simplify_app_default`
(simplifier.cpp:565-624): seed from the first non-reflexive index, then
extend argument by argument. -/
def mkCongrProofD (S : SimpCtx) (ctx : CtxE) (e : Expr) (acc : SadAcc) : CongrPrOut :=
  let num := numArgs e
  let i := firstSome acc.proofs
  if i == num then .allRefl
  else
    let seed : CongrPrOut :=
      if i == 0 then
        .built ((acc.proofs.getD 0 none).getD exprDefault)
          (S.o.hasHeq && acc.heq_proofs.getD 0 false)
      else if S.o.hasHeq &&
          (acc.heq_proofs.getD i false || !isArrow S (acc.f_types.getD (i - 1) exprDefault)) then
        let f := mkAppPre i acc.new_args
        let pr_i := (acc.proofs.getD i none).getD exprDefault
        match mkHCongrTh S ctx (acc.f_types.getD (i - 1) exprDefault)
            (acc.f_types.getD (i - 1) exprDefault) f f (argE e i) (acc.new_args.getD i exprDefault)
            (S.o.mkHRefl (acc.f_types.getD (i - 1) exprDefault) f) pr_i
            (acc.heq_proofs.getD i false) with
        | none => .failedPr
        | some pr => .built pr true
      else
        let f := mkAppPre i acc.new_args
        .built (mkCongr2Th S ctx (acc.f_types.getD (i - 1) exprDefault) (argE e i)
          (acc.new_args.getD i exprDefault) f ((acc.proofs.getD i none).getD exprDefault)) false
    match seed with
    | .failedPr => .failedPr
    | .allRefl => .allRefl
    | .built pr heq_pf =>
      sadProofLoop S ctx e acc.new_args acc.proofs acc.f_types acc.new_f_types acc.heq_proofs
        (num - (i + 1)) (i + 1) pr heq_pf

/-- The conditional-rewriting premise loop of `check_rule_fn`
(simplifier.cpp:745-783): walk the `ceq` spine over the substitution buffer,
discharging unbound propositional premises by recursive simplification.
Returns the assembled proof-argument buffer and the final `ceq`, or `none`
when the rule is rejected. -/
def condPremises (S : SimpCtx) (sfn : SimpFn) :
    List (Option Expr) → Expr → List Expr → SimpState → MS (Option (List Expr × Expr))
  | [], ceq, acc, st => (.ok (some (acc, ceq)), st)
  | some v :: rest, ceq, acc, st =>
    condPremises S sfn rest (S.o.instN (abstBody ceq) [v])
      (if S.cfg.m_proofs_enabled then acc ++ [v] else acc) st
  | none :: rest, ceq, acc, st =>
    let d := abstDomain ceq
    if S.o.isProp st.m_ctx d then
      bindO (sfn d st) fun d_res st' =>
        if d_res.out == S.o.trueE then
          if S.cfg.m_proofs_enabled then
            let d_proof :=
              match d_res.pf with
              | none => S.o.mkTrivial
              | some p => S.o.mkEqtElim d p
            condPremises S sfn rest (S.o.instN (abstBody ceq) [d_proof]) (acc ++ [d_proof]) st'
          else if isArrow S ceq then
            condPremises S sfn rest (S.o.lower1 (abstBody ceq)) acc st'
          else (.ok none, st')
        else (.ok none, st')
    else (.ok none, st)

/-- `check_rule_fn` (simplifier.cpp:715-792): higher-order match, then either
the fully-matched case or conditional rewriting, with the permutation guard
in both.  `some (new_rhs, new_proof)` accepts the rule. -/
def checkRule (S : SimpCtx) (sfn : SimpFn) (target : Expr) (rule : Rule) (st : SimpState) :
    MS (Option (Expr × Expr)) :=
  match S.o.hopMatch rule.lhs target rule.numA with
  | none => (.ok none, st)
  | some subst =>
    match foundAllArgs subst with
    | some argvals =>
      let new_rhs := S.o.instN rule.rhs argvals
      if rule.is_perm && !S.o.exprLt new_rhs target then (.ok none, st)
      else
        let new_proof :=
          if S.cfg.m_proofs_enabled then
            if rule.numA > 0 then mkAppE (rule.proof :: argvals) else rule.proof
          else exprDefault
        (.ok (some (new_rhs, new_proof)), st)
    | none =>
      bindO (condPremises S sfn subst rule.ceq
          (if S.cfg.m_proofs_enabled then [rule.proof] else []) st) fun res st' =>
        match res with
        | none => (.ok none, st')
        | some (proof_args, ceq) =>
          let new_proof := mkAppE proof_args
          let new_rhs := argE ceq (numArgs ceq - 1)
          if rule.is_perm && !S.o.exprLt new_rhs target then (.ok none, st')
          else (.ok (some (new_rhs, new_proof)), st')

/-- `rewrite_rule_set::find_match(target, check_rule_fn)`: try the set's rules
in order with the stateful callback; the first accepted rule wins. -/
def findMatchAux (S : SimpCtx) (sfn : SimpFn) (target : Expr) :
    List Rule → SimpState → MS (Option (Expr × Expr))
  | [], st => (.ok none, st)
  | rule :: rest, st =>
    bindO (checkRule S sfn target rule st) fun res st' =>
      match res with
      | some v => (.ok (some v), st')
      | none => findMatchAux S sfn target rest st'

/-- `mk_trans_result` composition after a rule fires, and the stabilization
passes of `rewrite` (simplifier.cpp:793-811), iterating over the rule sets. -/
def rwSets (S : SimpCtx) (sfn : SimpFn) (lhs : Expr) (rhs : Result) (target : Expr) :
    List RuleSet → SimpState → MS Result
  | [], st =>
    if !S.cfg.m_single_pass && !(lhs == rhs.out) then
      bindO (sfn rhs.out st) fun new_rhs st' =>
        (.ok (mkTransResult3 S st'.m_ctx lhs rhs new_rhs), st')
    else (.ok rhs, st)
  | rs :: rest, st =>
    bindO (findMatchAux S sfn target rs.rules st) fun hit st' =>
      match hit with
      | none => rwSets S sfn lhs rhs target rest st'
      | some (new_rhs, new_proof) =>
        let new_r1 := mkTransResult4 S st'.m_ctx lhs rhs new_rhs new_proof
        if S.cfg.m_single_pass then (.ok new_r1, st')
        else
          bindO (sfn new_r1.out st') fun new_r2 st'' =>
            (.ok (mkTransResult3 S st''.m_ctx lhs new_r1 new_r2), st'')

/-- `rewrite(lhs, rhs)` (simplifier.cpp:709-812). -/
def rewriteE (S : SimpCtx) (sfn : SimpFn) (lhs : Expr) (rhs : Result) (st : SimpState) :
    MS Result :=
  rwSets S sfn lhs rhs rhs.out st.m_rule_sets st

/-- `rewrite_app(lhs, rhs)` (simplifier.cpp:669-690): value evaluation, then
head beta, then `rewrite`. -/
def rewriteApp (S : SimpCtx) (sfn : SimpFn) (lhs : Expr) (rhs : Result) (st : SimpState) :
    MS Result :=
  let after_eval := fun (st : SimpState) =>
    let f := argE rhs.out 0
    if S.cfg.m_beta && isLambda f then
      rewriteE S sfn lhs ⟨S.o.headBeta rhs.out, rhs.pf, rhs.heq_proof⟩ st
    else rewriteE S sfn lhs rhs st
  if evaluateApp S rhs.out then
    let new_rhs := S.o.normalizeE st.m_ctx rhs.out
    if isValueE new_rhs then rewriteE S sfn lhs ⟨new_rhs, rhs.pf, rhs.heq_proof⟩ st
    else after_eval st
  else after_eval st

/-- `rewrite_lambda(lhs, rhs)` (simplifier.cpp:872-897): eta reduction when
applicable, then `rewrite`. -/
def rewriteLambda (S : SimpCtx) (sfn : SimpFn) (lhs : Expr) (rhs : Result) (st : SimpState) :
    MS Result :=
  if S.cfg.m_eta && isEtaTarget S rhs.out then
    let b := abstBody rhs.out
    let new_rhs0 := if numArgs b > 2 then mkAppE (appArgs b).dropLast else argE b 0
    let new_rhs := S.o.lower1 new_rhs0
    let new_rhs_type := S.o.ensurePi st.m_ctx (S.o.inferType st.m_ctx new_rhs)
    if S.o.isDefEq st.m_ctx (abstDomain new_rhs_type) (abstDomain rhs.out) then
      if S.cfg.m_proofs_enabled then
        let new_proof :=
          S.o.mkEta (abstDomain rhs.out) (mkLambdaOf rhs.out (abstBody new_rhs_type)) new_rhs
        rewriteE S sfn lhs (mkTransResult4 S st.m_ctx lhs rhs new_rhs new_proof) st
      else rewriteE S sfn lhs ⟨new_rhs, none, false⟩ st
    else rewriteE S sfn lhs rhs st
  else rewriteE S sfn lhs rhs st

/-- Step of the argument loop of `simplify_app_default`
(simplifier.cpp:538-557): push the simplified argument and, when proofs are
enabled, the proof/type buffers, descending both Pi spines.  Returns the
extended accumulator and the next `f_type`/`new_f_type` loop variables. -/
def sadPush (S : SimpCtx) (ft new_f_type a : Expr) (res_a : Result) (acc : SadAcc) :
    SadAcc × Expr × Expr :=
  let new_a := res_a.out
  let f_arrow := isArrow S ft
  if S.cfg.m_proofs_enabled then
    let changed_f_type := !(ft == new_f_type)
    let tys :=
      if f_arrow then
        let t := S.o.lower1 (abstBody ft)
        (t, if changed_f_type then S.o.lower1 (abstBody new_f_type) else t)
      else if a == new_a then
        let t := S.o.piBodyAt ft a
        (t, if changed_f_type then S.o.piBodyAt new_f_type a else t)
      else (S.o.piBodyAt ft a, S.o.piBodyAt new_f_type new_a)
    (⟨acc.new_args ++ [new_a], acc.proofs ++ [res_a.pf], acc.f_types ++ [tys.1],
      acc.new_f_types ++ [tys.2],
      acc.heq_proofs ++ (if S.o.hasHeq then [res_a.heq_proof] else []), acc.changed⟩,
      tys.1, tys.2)
  else
    (⟨acc.new_args ++ [new_a], acc.proofs, acc.f_types, acc.new_f_types, acc.heq_proofs,
      acc.changed⟩, ft, new_f_type)

/-- The argument loop of `simplify_app_default` (simplifier.cpp:528-558): an
argument is recursively simplified only when heterogeneous equality is
available or the current `f_type` is a non-dependent arrow.  Note that the
spine descent performed by `sadPush` happens only when proof generation is
enabled. -/
def sadLoop (S : SimpCtx) (sfn : SimpFn) :
    List Expr → Expr → Expr → SadAcc → SimpState → MS SadAcc
  | [], _, _, acc, st => (.ok acc, st)
  | a :: rest, f_type, new_f_type, acc, st =>
    let ft := S.o.ensurePi st.m_ctx f_type
    let f_arrow := isArrow S ft
    if S.o.hasHeq || f_arrow then
      bindO (sfn a st) fun res_a st' =>
        let acc1 := if res_a.out == a then acc else { acc with changed := true }
        let step := sadPush S ft new_f_type a res_a acc1
        sadLoop S sfn rest step.2.1 step.2.2 step.1 st'
    else
      let step := sadPush S ft new_f_type a ⟨a, none, false⟩ acc
      sadLoop S sfn rest step.2.1 step.2.2 step.1 st

/-- `simplify_app_default(e)` (simplifier.cpp:504-626). -/
def simplifyAppDefault (S : SimpCtx) (sfn : SimpFn) (e : Expr) (st : SimpState) : MS Result :=
  let f := argE e 0
  let f_type := S.o.inferType st.m_ctx f
  bindO (sfn f st) fun res_f st1 =>
    let new_f := res_f.out
    let changed := !(new_f == f)
    let nft0 :=
      if S.cfg.m_proofs_enabled then
        if res_f.heq_proof then S.o.inferType st1.m_ctx new_f else f_type
      else exprDefault
    let acc0 : SadAcc :=
      if S.cfg.m_proofs_enabled then
        ⟨[new_f], [res_f.pf], [f_type], [nft0],
          if S.o.hasHeq then [res_f.heq_proof] else [], changed⟩
      else ⟨[new_f], [], [], [], [], changed⟩
    bindO (sadLoop S sfn (appArgs e).tail f_type nft0 acc0 st1) fun acc st2 =>
      if !acc.changed then rewriteApp S sfn e ⟨e, none, false⟩ st2
      else if !S.cfg.m_proofs_enabled then
        rewriteApp S sfn e ⟨mkAppE acc.new_args, none, false⟩ st2
      else
        let out := mkAppE acc.new_args
        match mkCongrProofD S st2.m_ctx e acc with
        | .allRefl => rewriteApp S sfn e ⟨out, none, false⟩ st2
        | .failedPr => rewriteApp S sfn e ⟨e, none, false⟩ st2
        | .built pr heq_pf => rewriteApp S sfn e ⟨out, some pr, heq_pf⟩ st2

/-- `rewrite_rule_set::insert(g_local, fact, proof)`: the oracle supplies the
rules derived from the fact; they are prepended to the set. -/
def insertRS (S : SimpCtx) (rs : RuleSet) (fact pf : Expr) : RuleSet :=
  { rs with rules := S.o.insertRules fact pf ++ rs.rules }

/-- Outcome of the congruence-theorem argument loop: either the filled
buffers, or the value of the `simplify_app_default` fallback taken from
inside the loop (simplifier.cpp:452,477). -/
inductive SacOut where
  | done (new_args proof_args : List Expr) (changed : Bool)
  | fell (r : Result)

/-- The argument loop of `simplify_app_congr` (simplifier.cpp:441-493).
For a contextual argument the hypothesis is scope-inserted into rule set 0
(`updt_rule_set`); when proofs are enabled the contextual depth is bumped
(`flet`) and the cache is reset (`freset`) for the recursive call, all three
being unwound on every exit path.  In the proofs-disabled branch the source
installs the hypothesis without resetting the cache. -/
def sacLoop (S : SimpCtx) (sfn : SimpFn) (e : Expr) :
    List CongrArgInfo → List Expr → List Expr → Bool → SimpState → MS SacOut
  | [], new_args, proof_args, changed, st => (.ok (.done new_args proof_args changed), st)
  | info :: rest, new_args, proof_args, changed, st =>
    let pos := info.arg_pos
    let a := argE e pos
    if info.simp_arg then
      match info.ctx_info with
      | none =>
        bindO (sfn a st) fun res_a st1 =>
          let new_args1 := new_args.set pos res_a.out
          if S.cfg.m_proofs_enabled then
            match ensureHomogeneous S st1.m_ctx a res_a with
            | none =>
              bindO (simplifyAppDefault S sfn e st1) fun r st2 => (.ok (.fell r), st2)
            | some res_a' =>
              let proof_args1 :=
                ((proof_args.set info.pos_at_proof a).set (info.new_pos_at_proof.getD 0)
                    (new_args1.getD pos exprDefault)).set (info.proof_pos_at_proof.getD 0)
                  (getProofE S st1.m_ctx res_a')
              sacLoop S sfn e rest new_args1 proof_args1
                (changed || !((new_args1.getD pos exprDefault) == a)) st1
          else
            sacLoop S sfn e rest new_args1 proof_args
              (changed || !((new_args1.getD pos exprDefault) == a)) st1
      | some cctx =>
        let dep_pos := cctx.arg_pos
        let H0 := if cctx.use_new_val then new_args.getD dep_pos exprDefault else argE e dep_pos
        let H := if !cctx.is_pos_dep then S.o.mkNot H0 else H0
        if !S.cfg.m_proofs_enabled then
          let old0 := st.m_rule_sets.getD 0 emptyRuleSet
          let st1 := { st with m_rule_sets := st.m_rule_sets.set 0 (insertRS S old0 H exprDefault) }
          let unwind := fun (s : SimpState) => { s with m_rule_sets := s.m_rule_sets.set 0 old0 }
          bindO (finallyO (sfn a st1) unwind) fun res_a st2 =>
            let new_args1 := new_args.set pos res_a.out
            sacLoop S sfn e rest new_args1 proof_args
              (changed || !((new_args1.getD pos exprDefault) == a)) st2
        else
          let saved_depth := st.m_contextual_depth
          let d := saved_depth + 1
          let H_proof := Expr.const (NameE.mkNum g_unique d)
          let old0 := st.m_rule_sets.getD 0 emptyRuleSet
          let saved_cache := st.m_cache
          let st1 := { st with m_contextual_depth := d,
                               m_rule_sets := st.m_rule_sets.set 0 (insertRS S old0 H H_proof),
                               m_cache := ([] : List (Expr × Result)) }
          let unwind := fun (s : SimpState) =>
            { s with m_contextual_depth := saved_depth,
                     m_rule_sets := s.m_rule_sets.set 0 old0,
                     m_cache := saved_cache }
          match sfn a st1 with
          | (.ok res_a, st2) =>
            match ensureHomogeneous S st2.m_ctx a res_a with
            | none =>
              finallyO (bindO (simplifyAppDefault S sfn e st2) fun r st3 =>
                (.ok (SacOut.fell r), st3)) unwind
            | some res_a' =>
              let new_args1 := new_args.set pos res_a'.out
              let C_name := NameE.mkNum g_C d
              let proof_args1 :=
                ((proof_args.set info.pos_at_proof a).set (info.new_pos_at_proof.getD 0)
                    (new_args1.getD pos exprDefault)).set (info.proof_pos_at_proof.getD 0)
                  (Expr.lam C_name H (S.o.abstract1 (getProofE S st2.m_ctx res_a') H_proof))
              sacLoop S sfn e rest new_args1 proof_args1
                (changed || !((new_args1.getD pos exprDefault) == a)) (unwind st2)
          | (.err m, st2) => (.err m, unwind st2)
          | (.fuelOut, st2) => (.fuelOut, unwind st2)
    else
      sacLoop S sfn e rest (new_args.set pos (argE e pos))
        (if S.cfg.m_proofs_enabled then proof_args.set info.pos_at_proof (argE e pos)
         else proof_args) changed st

/-- `simplify_app_congr(e, cg)` (simplifier.cpp:427-502). -/
def simplifyAppCongr (S : SimpCtx) (sfn : SimpFn) (e : Expr) (cg : CongrThm) (st : SimpState) :
    MS Result :=
  let n := numArgs e
  let new_args0 := argE e 0 :: List.replicate (n - 1) exprDefault
  let proof_args0 := List.replicate cg.num_proof_args exprDefault
  bindO (sacLoop S sfn e cg.args new_args0 proof_args0 false st) fun outn st1 =>
    match outn with
    | .fell r => (.ok r, st1)
    | .done new_args proof_args changed =>
      if !changed then rewriteApp S sfn e ⟨e, none, false⟩ st1
      else if !S.cfg.m_proofs_enabled then
        rewriteApp S sfn e ⟨mkAppE new_args, none, false⟩ st1
      else
        rewriteApp S sfn e ⟨mkAppE new_args, some (mkAppE (cg.proof :: proof_args)), false⟩ st1

/-- `simplify_app(e)` (simplifier.cpp:347-390): the cast short-circuit, then
the congruence-aware path when contextual mode has a theorem for the head,
else the default path. -/
def simplifyApp (S : SimpCtx) (sfn : SimpFn) (e : Expr) (st : SimpState) : MS Result :=
  if S.o.hasCast && isCast S e then
    let A := argE e 1
    let B := argE e 2
    if S.cfg.m_proofs_enabled then
      bindO (sfn (argE e 4) st) fun res_a st' =>
        (.ok (castResult S st'.m_ctx e A B res_a), st')
    else sfn (argE e 4) st
  else
    if S.cfg.m_contextual then
      match S.congr_thms.find? (fun cg => cg.fn == argE e 0) with
      | some cg => simplifyAppCongr S sfn e cg st
      | none => simplifyAppDefault S sfn e st
    else simplifyAppDefault S sfn e st

/-- `simplify_var(e)` (simplifier.cpp:814): no rule specialization. -/
def simplifyVar (e : Expr) (st : SimpState) : MS Result :=
  (.ok ⟨e, none, false⟩, st)

/-- `simplify_constant(e)` (simplifier.cpp:823-840).  The `m_eval` branch
dereferences the object returned by `find_object` without a null guard; the
dereference of an absent object is modelled by an error outcome. -/
def simplifyConstant (S : SimpCtx) (sfn : SimpFn) (e : Expr) (st : SimpState) : MS Result :=
  match e with
  | .const cn =>
    if S.cfg.m_unfold || S.cfg.m_eval then
      let obj := S.o.findObject cn
      if S.cfg.m_unfold && S.o.shouldUnfold obj then
        match obj with
        | none => (.err "dereference of absent environment object", st)
        | some o =>
          if S.cfg.m_single_pass then (.ok ⟨o.objValue, none, false⟩, st)
          else sfn o.objValue st
      else if S.cfg.m_eval then
        match obj with
        | none => (.err "dereference of absent environment object", st)
        | some o =>
          if o.builtin then (.ok ⟨o.objValue, none, false⟩, st)
          else rewriteE S sfn e ⟨e, none, false⟩ st
      else rewriteE S sfn e ⟨e, none, false⟩ st
    else rewriteE S sfn e ⟨e, none, false⟩ st
  | _ => rewriteE S sfn e ⟨e, none, false⟩ st

/-- `simplify_lambda(e)` (simplifier.cpp:899-919).  `set_context` extends the
context and resets the cache for the whole body, restoring both on exit. -/
def simplifyLambda (S : SimpCtx) (sfn : SimpFn) (e : Expr) (st : SimpState) : MS Result :=
  if S.o.hasHeq then (.ok ⟨e, none, false⟩, st)
  else
    let saved_ctx := st.m_ctx
    let saved_cache := st.m_cache
    let st1 := { st with m_ctx := extendCtx st.m_ctx (abstName e) (abstDomain e),
                         m_cache := ([] : List (Expr × Result)) }
    let unwind := fun (s : SimpState) => { s with m_ctx := saved_ctx, m_cache := saved_cache }
    finallyO
      (bindO (sfn (abstBody e) st1) fun res_body st2 =>
        let new_body := res_body.out
        if new_body == abstBody e then rewriteLambda S sfn e ⟨e, none, false⟩ st2
        else
          let out := mkLambdaOf e new_body
          if !S.cfg.m_proofs_enabled then rewriteLambda S sfn e ⟨out, none, false⟩ st2
          else
            match res_body.pf with
            | none => rewriteLambda S sfn e ⟨out, none, false⟩ st2
            | some bpf =>
              let body_type := S.o.inferType st2.m_ctx (abstBody e)
              let pr := S.o.mkFunext (abstDomain e) (mkLambdaOf e body_type) e out
                (mkLambdaOf e bpf)
              rewriteLambda S sfn e ⟨out, some pr, false⟩ st2)
      unwind

/-- `simplify_pi(e)` (simplifier.cpp:921-946): only propositional Pis are
simplified when heterogeneous equality is absent. -/
def simplifyPi (S : SimpCtx) (sfn : SimpFn) (e : Expr) (st : SimpState) : MS Result :=
  if S.o.hasHeq then (.ok ⟨e, none, false⟩, st)
  else if S.o.isProp st.m_ctx e then
    let saved_ctx := st.m_ctx
    let saved_cache := st.m_cache
    let st1 := { st with m_ctx := extendCtx st.m_ctx (abstName e) (abstDomain e),
                         m_cache := ([] : List (Expr × Result)) }
    let unwind := fun (s : SimpState) => { s with m_ctx := saved_ctx, m_cache := saved_cache }
    finallyO
      (bindO (sfn (abstBody e) st1) fun res_body st2 =>
        let new_body := res_body.out
        if new_body == abstBody e then rewriteE S sfn e ⟨e, none, false⟩ st2
        else
          let out := Expr.pi (abstName e) (abstDomain e) new_body
          if !S.cfg.m_proofs_enabled then rewriteE S sfn e ⟨out, none, false⟩ st2
          else
            match res_body.pf with
            | none => rewriteE S sfn e ⟨out, none, false⟩ st2
            | some bpf =>
              let pr := S.o.mkAllext (abstDomain e) (mkLambdaOf e (abstBody e))
                (mkLambdaOf e (abstBody out)) (mkLambdaOf e bpf)
              rewriteE S sfn e ⟨out, some pr, false⟩ st2)
      unwind
  else (.ok ⟨e, none, false⟩, st)

/-- `save(e, r)` (simplifier.cpp:948): on normal return with memoization on,
replace the output with its max-shared form and insert into the cache. -/
def saveR (S : SimpCtx) (e : Expr) (x : MS Result) : MS Result :=
  match x with
  | (.ok r, st) =>
    if S.cfg.m_memoize then
      let r' : Result := ⟨S.o.maxShare r.out, r.pf, r.heq_proof⟩
      (.ok r', { st with m_cache := (e, r') :: st.m_cache })
    else (.ok r, st)
  | other => other

/-- The kind dispatch of `simplify` (simplifier.cpp:970-980). -/
def simplifyStep (S : SimpCtx) (sfn : SimpFn) (e : Expr) (st : SimpState) : MS Result :=
  match e with
  | .var _ => saveR S e (simplifyVar e st)
  | .const _ => saveR S e (simplifyConstant S sfn e st)
  | .type => saveR S e (.ok ⟨e, none, false⟩, st)
  | .metavar => saveR S e (.ok ⟨e, none, false⟩, st)
  | .value _ => saveR S e (.ok ⟨e, none, false⟩, st)
  | .app _ => saveR S e (simplifyApp S sfn e st)
  | .lam .. => saveR S e (simplifyLambda S sfn e st)
  | .pi .. => saveR S e (simplifyPi S sfn e st)
  | .letE _ v b => saveR S e (sfn (S.o.instN b [v]) st)

/-- The driver `simplify(e)` (simplifier.cpp:958-982): step counting with the
exhaustion check, memoization keyed on the max-shared form, then the kind
dispatch.  The fuel index is an artifact of the embedding; the cooperative
interrupt check (`check_system`) is modelled as never firing. -/
def simplifyE (S : SimpCtx) : Nat → Expr → SimpState → MS Result
  | 0 => fun _ st =>
    let st1 := { st with m_num_steps := st.m_num_steps + 1 }
    if st1.m_num_steps > S.cfg.m_max_steps then
      (.err "simplifier failed, maximum number of steps exceeded", st1)
    else (.fuelOut, st1)
  | f + 1 => fun e st =>
    let st1 := { st with m_num_steps := st.m_num_steps + 1 }
    if st1.m_num_steps > S.cfg.m_max_steps then
      (.err "simplifier failed, maximum number of steps exceeded", st1)
    else
      let e1 := if S.cfg.m_memoize then S.o.maxShare e else e
      match (if S.cfg.m_memoize then lookupC st1.m_cache e1 else none) with
      | some r => (.ok r, st1)
      | none => simplifyStep S (simplifyE S f) e1 st1

/-- `collect_congr_thms` (simplifier.cpp:984-996): in contextual mode, gather
each rule set's congruence theorems, keeping the first theorem per head. -/
def collectCongrThms (contextual : Bool) (sets : List RuleSet) : List CongrThm :=
  if contextual then
    sets.foldl (fun acc rs =>
      rs.congrs.foldl (fun acc2 info =>
        if acc2.all (fun info2 => !(info2.fn == info.fn)) then acc2 ++ [info] else acc2) acc) []
  else []

/-- The rule-set vector built by the constructor (simplifier.cpp:1012-1024):
a fresh simplifier-owned set at index 0 when contextual mode is on, followed
by copies of the caller's sets. -/
def initRuleSets (cfg : Cfg) (caller : List RuleSet) : List RuleSet :=
  (if cfg.m_contextual then [emptyRuleSet] else []) ++ caller

/-- The immutable simplifier data built by the constructor. -/
def mkSimpCtx (O : Oracle) (cfg : Cfg) (caller : List RuleSet) : SimpCtx :=
  ⟨O, cfg, collectCongrThms cfg.m_contextual (initRuleSets cfg caller)⟩

/-- The public operation: constructor plus `operator()` (simplifier.cpp:1026,
1034): reset the step counter, install the caller's context, simplify, and
return the output together with its (possibly reflexive) proof. -/
def simplifierMain (O : Oracle) (cfg : Cfg) (caller : List RuleSet) (fuel : Nat)
    (e : Expr) (ctx : CtxE) : Outc (Expr × Expr) × SimpState :=
  let S := mkSimpCtx O cfg caller
  let st0 : SimpState := ⟨ctx, initRuleSets cfg caller, [], 0, 0⟩
  match simplifyE S fuel e st0 with
  | (.ok r, st') => (.ok (r.out, getProofE S st'.m_ctx r), st')
  | (.err m, st') => (.err m, st')
  | (.fuelOut, st') => (.fuelOut, st')

def tname (s : String) : Expr := Expr.const (NameE.mkStr s)

def O0 : Oracle where
  hasHeq := false
  hasCast := false
  inferType := fun _ _ => Expr.type
  isProp := fun _ _ => false
  isConv := fun _ _ _ => true
  isDefEq := fun _ _ _ => true
  ensurePi := fun _ e => e
  normalizeE := fun _ e => e
  hopMatch := fun _ _ _ => none
  exprLt := fun _ _ => false
  maxShare := fun e => e
  instN := fun e _ => e
  lower1 := fun e => e
  abstract1 := fun e _ => e
  hasFV0 := fun _ => false
  headBeta := fun e => e
  piBodyAt := fun e _ => e
  findObject := fun _ => some ⟨false, Expr.type⟩
  shouldUnfold := fun _ => false
  isEqNeqHeq := fun _ => false
  trueE := Expr.value 0
  castC := tname "cast"
  castHeqFn := tname "cast_heq"
  mkNot := fun e => Expr.app [tname "not", e]
  mkEq := fun A a b => Expr.app [tname "eq", A, a, b]
  mkRefl := fun A a => Expr.app [tname "refl", A, a]
  mkHRefl := fun A a => Expr.app [tname "hrefl", A, a]
  mkTrans := fun A a b c H1 H2 => Expr.app [tname "trans", A, a, b, c, H1, H2]
  mkHTrans := fun A B C a b c H1 H2 => Expr.app [tname "htrans", A, B, C, a, b, c, H1, H2]
  mkToEq := fun A a b H => Expr.app [tname "to_eq", A, a, b, H]
  mkToHeq := fun A a b H => Expr.app [tname "to_heq", A, a, b, H]
  mkSubst := fun A a b P H1 H2 => Expr.app [tname "subst", A, a, b, P, H1, H2]
  mkCongr1 := fun A B f g a H => Expr.app [tname "congr1", A, B, f, g, a, H]
  mkCongr2 := fun A B a b f H => Expr.app [tname "congr2", A, B, a, b, f, H]
  mkCongr := fun A B f g a b Hf Ha => Expr.app [tname "congr", A, B, f, g, a, b, Hf, Ha]
  mkHCongr := fun A A' B B' f f' a a' Hf Ha =>
    Expr.app [tname "hcongr", A, A', B, B', f, f', a, a', Hf, Ha]
  mkEqtElim := fun d H => Expr.app [tname "eqt_elim", d, H]
  mkTrivial := tname "trivial"
  mkEta := fun A P f => Expr.app [tname "eta", A, P, f]
  mkFunext := fun A P f g H => Expr.app [tname "funext", A, P, f, g, H]
  mkAllext := fun A P Q H => Expr.app [tname "allext", A, P, Q, H]
  insertRules := fun _ _ => []

def cfg0 : Cfg := ⟨true, true, false, true, true, true, false, true, true, 1000000⟩


/-- Frame invariant of an embedded computation relative to its entry state:
the step counter is monotone, the rule-set vector and context are restored on
every exit path, and with fuel `f` exceeding the remaining step budget the
computation cannot run out of fuel. -/
def GoodO (S : SimpCtx) (f : Nat) {α : Type} (x : MS α) (st : SimpState) : Prop :=
  st.m_num_steps ≤ x.2.m_num_steps ∧ x.2.m_rule_sets = st.m_rule_sets ∧
    x.2.m_ctx = st.m_ctx ∧
    (S.cfg.m_max_steps < f + st.m_num_steps → x.1 ≠ Outc.fuelOut)

/-- A result that carries no proof and no heterogeneous-equality flag. -/
def CleanR (r : Result) : Prop := r.pf = none ∧ r.heq_proof = false

/-- All cached results are proof-free. -/
def CleanC (st : SimpState) : Prop := ∀ p ∈ st.m_cache, CleanR p.2

/-- Cleanliness of a computation: the final cache is proof-free and so is a
normally returned payload (measured by `P`). -/
def CleanP {α : Type} (P : α → Prop) (x : MS α) : Prop :=
  CleanC x.2 ∧ ∀ a, x.1 = Outc.ok a → P a

/-- Payload condition for the congruence argument loop. -/
def CleanSac (s : SacOut) : Prop :=
  match s with
  | .fell r => CleanR r
  | .done _ _ _ => True

/-- Concrete test fixtures below: a trivial oracle whose proof builders tag
their arguments with head constants, and oracles/configurations derived from
it that drive specific code paths at concrete inputs. -/
def stw : SimpState := ⟨[], [], [], 0, 0⟩

def sfn0 : SimpFn := fun _ st => (.ok ⟨Expr.type, none, false⟩, st)

def Oc4 : Oracle := { O0 with
  hopMatch := fun _ _ n => if n == 1 then some [some (Expr.value 1)] else none
  exprLt := fun _ _ => true
  instN := fun e _ => e }

def rule4 : Rule := ⟨1, tname "L", Expr.value 7, tname "ceq", tname "pf", true⟩

def Sc4 : SimpCtx := mkSimpCtx Oc4 cfg0 []

def Oc9 : Oracle := { O0 with findObject := fun _ => none }

def Sc9 : SimpCtx := mkSimpCtx Oc9 cfg0 []

def Oc10 : Oracle := { O0 with hasCast := true }

def Sc10 : SimpCtx := mkSimpCtx Oc10 cfg0 []

def eC10 : Expr :=
  Expr.app [tname "cast", tname "A", tname "B", tname "H", Expr.value 3]

def S0 : SimpCtx := mkSimpCtx O0 cfg0 []

def cfgNoMemo : Cfg := { cfg0 with m_memoize := false }

def SNoMemo : SimpCtx := mkSimpCtx O0 cfgNoMemo []

def Oc1 : Oracle := { O0 with
  hopMatch := fun _ _ n => if n == 1 then some [none] else none
  isProp := fun _ _ => true
  instN := fun e _ => e }

def ruleC1 : Rule :=
  ⟨1, tname "L", tname "s",
    Expr.pi (NameE.mkStr "h") (Expr.value 0) (Expr.app [tname "eq", tname "t", tname "s"]),
    tname "pf", false⟩

def cfgC1 : Cfg := ⟨false, false, true, false, false, false, false, false, false, 1000⟩

def rsC1 : RuleSet := ⟨[ruleC1], []⟩

def Oc2 : Oracle := { O0 with
  insertRules := fun fact pf => [⟨0, fact, fact, fact, pf, false⟩] }

def cgC2 : CongrThm :=
  ⟨tname "g", tname "cgpf", 4,
    [⟨1, false, none, 0, none, none⟩,
     ⟨2, true, some ⟨1, false, true⟩, 1, some 2, some 3⟩]⟩

def cfgC2 : Cfg := ⟨false, true, true, false, false, false, false, true, true, 1000⟩

def rsC2 : RuleSet := ⟨[], [cgC2]⟩

def eC2 : Expr := Expr.app [tname "g", tname "c", Expr.value 7]

def ftC6 : Expr :=
  Expr.pi (NameE.mkStr "x") (tname "A") (Expr.pi (NameE.mkStr "y") (tname "Cc") (Expr.var 0))

def Oc6 : Oracle := { O0 with
  hasFV0 := fun e => e == Expr.var 0
  inferType := fun _ e => if e == tname "f" then ftC6 else Expr.type
  instN := fun e _ => if e == tname "body" then Expr.value 5 else e }

def cfgC6 : Cfg := ⟨false, false, true, false, false, false, false, true, false, 1000⟩

def eC6 : Expr :=
  Expr.app [tname "f", Expr.value 1, Expr.letE (NameE.mkStr "z") (tname "v") (tname "body")]

def cfgPF : Cfg := { cfg0 with m_proofs_enabled := false }

/-- The same simplifier data with the stored `conditional` flag replaced by
`b`; used to prove that the flag is never consulted. -/
def eqCond (S : SimpCtx) (b : Bool) : SimpCtx :=
  ⟨S.o, ⟨S.cfg.m_proofs_enabled, S.cfg.m_contextual, S.cfg.m_single_pass, S.cfg.m_beta,
    S.cfg.m_eta, S.cfg.m_eval, S.cfg.m_unfold, b, S.cfg.m_memoize, S.cfg.m_max_steps⟩,
    S.congr_thms⟩

theorem list_set_set {α : Type} (l : List α) (a b : α) : (l.set 0 a).set 0 b = l.set 0 b := by
  cases l <;> rfl

theorem list_set_getD_self {α : Type} (l : List α) (d : α) : l.set 0 (l.getD 0 d) = l := by
  cases l <;> rfl

theorem goodO_here (S : SimpCtx) (f : Nat) {α : Type} (o : Outc α) (st : SimpState)
    (h : o ≠ Outc.fuelOut) : GoodO S f (o, st) st :=
  ⟨le_refl _, rfl, rfl, fun _ => h⟩

theorem goodO_okP (S : SimpCtx) (f : Nat) {α : Type} (a : α) (st : SimpState) :
    GoodO S f (Outc.ok a, st) st := ⟨le_refl _, rfl, rfl, fun _ h => nomatch h⟩

theorem goodO_errP (S : SimpCtx) (f : Nat) {α : Type} (m : String) (st : SimpState) :
    GoodO S f ((Outc.err m : Outc α), st) st := ⟨le_refl _, rfl, rfl, fun _ h => nomatch h⟩

theorem goodO_bind (S : SimpCtx) (f : Nat) {α β : Type} (x : MS α)
    (k : α → SimpState → MS β) (st : SimpState) (hx : GoodO S f x st)
    (hk : ∀ a st', GoodO S f (k a st') st') : GoodO S f (bindO x k) st := by
  obtain ⟨o, st1⟩ := x
  obtain ⟨h1, h2, h3, h4⟩ := hx
  replace h1 : st.m_num_steps ≤ st1.m_num_steps := h1
  replace h2 : st1.m_rule_sets = st.m_rule_sets := h2
  replace h3 : st1.m_ctx = st.m_ctx := h3
  cases o with
  | ok a =>
    obtain ⟨g1, g2, g3, g4⟩ := hk a st1
    replace g1 : st1.m_num_steps ≤ (k a st1).2.m_num_steps := g1
    refine ⟨?_, ?_, ?_, ?_⟩
    · show st.m_num_steps ≤ (k a st1).2.m_num_steps
      omega
    · show (k a st1).2.m_rule_sets = st.m_rule_sets
      rw [g2, h2]
    · show (k a st1).2.m_ctx = st.m_ctx
      rw [g3, h3]
    · intro hfuel
      show (k a st1).1 ≠ Outc.fuelOut
      exact g4 (by omega)
  | err m =>
    exact ⟨h1, h2, h3, fun _ h => nomatch h⟩
  | fuelOut =>
    exact ⟨h1, h2, h3, fun hfuel => absurd rfl (h4 hfuel)⟩

theorem good_condPremises (S : SimpCtx) (f : Nat) (sfn : SimpFn)
    (hs : ∀ e st, GoodO S f (sfn e st) st) :
    ∀ (subst : List (Option Expr)) (ceq : Expr) (acc : List Expr) (st : SimpState),
    GoodO S f (condPremises S sfn subst ceq acc st) st := by
  intro subst
  induction subst with
  | nil => intro ceq acc st; exact goodO_okP S f _ st
  | cons hd rest ih =>
    intro ceq acc st
    cases hd with
    | some v => simp only [condPremises]; exact ih _ _ st
    | none =>
      simp only [condPremises]
      split
      · refine goodO_bind S f _ _ st (hs _ st) ?_
        intro d_res st'
        split
        · split
          · exact ih _ _ st'
          · split
            · exact ih _ _ st'
            · exact goodO_okP S f _ st'
        · exact goodO_okP S f _ st'
      · exact goodO_okP S f _ st

theorem good_checkRule (S : SimpCtx) (f : Nat) (sfn : SimpFn)
    (hs : ∀ e st, GoodO S f (sfn e st) st) (target : Expr) (rule : Rule) (st : SimpState) :
    GoodO S f (checkRule S sfn target rule st) st := by
  unfold checkRule
  split
  · exact goodO_okP S f _ st
  · split
    · dsimp only
      split
      · exact goodO_okP S f _ st
      · exact goodO_okP S f _ st
    · refine goodO_bind S f _ _ st (good_condPremises S f sfn hs _ _ _ st) ?_
      intro res st'
      cases res with
      | none => exact goodO_okP S f _ st'
      | some pc =>
        obtain ⟨pa, ceq⟩ := pc
        dsimp only
        split
        · exact goodO_okP S f _ st'
        · exact goodO_okP S f _ st'

theorem good_findMatchAux (S : SimpCtx) (f : Nat) (sfn : SimpFn)
    (hs : ∀ e st, GoodO S f (sfn e st) st) (target : Expr) :
    ∀ (rules : List Rule) (st : SimpState),
    GoodO S f (findMatchAux S sfn target rules st) st := by
  intro rules
  induction rules with
  | nil => intro st; exact goodO_okP S f _ st
  | cons rule rest ih =>
    intro st
    simp only [findMatchAux]
    refine goodO_bind S f _ _ st (good_checkRule S f sfn hs target rule st) ?_
    intro res st'
    cases res with
    | some v => exact goodO_okP S f _ st'
    | none => exact ih st'

theorem good_rwSets (S : SimpCtx) (f : Nat) (sfn : SimpFn)
    (hs : ∀ e st, GoodO S f (sfn e st) st) (lhs : Expr) (rhs : Result) (target : Expr) :
    ∀ (sets : List RuleSet) (st : SimpState),
    GoodO S f (rwSets S sfn lhs rhs target sets st) st := by
  intro sets
  induction sets with
  | nil =>
    intro st
    simp only [rwSets]
    split
    · refine goodO_bind S f _ _ st (hs _ st) ?_
      intro r st'
      exact goodO_okP S f _ st'
    · exact goodO_okP S f _ st
  | cons rs rest ih =>
    intro st
    simp only [rwSets]
    refine goodO_bind S f _ _ st (good_findMatchAux S f sfn hs target rs.rules st) ?_
    intro hit st'
    cases hit with
    | none => exact ih st'
    | some v =>
      obtain ⟨nr, np⟩ := v
      dsimp only
      split
      · exact goodO_okP S f _ st'
      · refine goodO_bind S f _ _ st' (hs _ st') ?_
        intro r st''
        exact goodO_okP S f _ st''

theorem good_rewriteE (S : SimpCtx) (f : Nat) (sfn : SimpFn)
    (hs : ∀ e st, GoodO S f (sfn e st) st) (lhs : Expr) (rhs : Result) (st : SimpState) :
    GoodO S f (rewriteE S sfn lhs rhs st) st :=
  good_rwSets S f sfn hs lhs rhs rhs.out st.m_rule_sets st

theorem good_rewriteApp (S : SimpCtx) (f : Nat) (sfn : SimpFn)
    (hs : ∀ e st, GoodO S f (sfn e st) st) (lhs : Expr) (rhs : Result) (st : SimpState) :
    GoodO S f (rewriteApp S sfn lhs rhs st) st := by
  unfold rewriteApp
  dsimp only
  split
  · split
    · exact good_rewriteE S f sfn hs _ _ st
    · split
      · exact good_rewriteE S f sfn hs _ _ st
      · exact good_rewriteE S f sfn hs _ _ st
  · split
    · exact good_rewriteE S f sfn hs _ _ st
    · exact good_rewriteE S f sfn hs _ _ st

theorem good_rewriteLambda (S : SimpCtx) (f : Nat) (sfn : SimpFn)
    (hs : ∀ e st, GoodO S f (sfn e st) st) (lhs : Expr) (rhs : Result) (st : SimpState) :
    GoodO S f (rewriteLambda S sfn lhs rhs st) st := by
  unfold rewriteLambda
  dsimp only
  split
  · repeat' split
    all_goals exact good_rewriteE S f sfn hs _ _ st
  · exact good_rewriteE S f sfn hs _ _ st

theorem good_sadLoop (S : SimpCtx) (f : Nat) (sfn : SimpFn)
    (hs : ∀ e st, GoodO S f (sfn e st) st) :
    ∀ (args : List Expr) (f_type new_f_type : Expr) (acc : SadAcc) (st : SimpState),
    GoodO S f (sadLoop S sfn args f_type new_f_type acc st) st := by
  intro args
  induction args with
  | nil => intro ftype nft acc st; exact goodO_okP S f _ st
  | cons a rest ih =>
    intro ftype nft acc st
    simp only [sadLoop]
    split
    · refine goodO_bind S f _ _ st (hs a st) ?_
      intro res_a st'
      exact ih _ _ _ st'
    · exact ih _ _ _ st

theorem good_simplifyAppDefault (S : SimpCtx) (f : Nat) (sfn : SimpFn)
    (hs : ∀ e st, GoodO S f (sfn e st) st) (e : Expr) (st : SimpState) :
    GoodO S f (simplifyAppDefault S sfn e st) st := by
  unfold simplifyAppDefault
  refine goodO_bind S f _ _ st (hs _ st) ?_
  intro res_f st1
  dsimp only
  refine goodO_bind S f _ _ st1 (good_sadLoop S f sfn hs _ _ _ _ st1) ?_
  intro acc st2
  split
  · exact good_rewriteApp S f sfn hs _ _ st2
  · split
    · exact good_rewriteApp S f sfn hs _ _ st2
    · split
      · exact good_rewriteApp S f sfn hs _ _ st2
      · exact good_rewriteApp S f sfn hs _ _ st2
      · exact good_rewriteApp S f sfn hs _ _ st2

theorem set_set_getD (l : List RuleSet) (z : RuleSet) :
    (l.set 0 z).set 0 (l.getD 0 emptyRuleSet) = l := by
  cases l <;> rfl

theorem goodO_mono (S : SimpCtx) (f : Nat) {α : Type} (y : MS α) (st st' : SimpState)
    (hy : GoodO S f y st') (h1 : st.m_num_steps ≤ st'.m_num_steps)
    (h2 : st'.m_rule_sets = st.m_rule_sets) (h3 : st'.m_ctx = st.m_ctx) : GoodO S f y st := by
  obtain ⟨g1, g2, g3, g4⟩ := hy
  exact ⟨h1.trans g1, g2.trans h2, g3.trans h3, fun hfuel => g4 (by omega)⟩

theorem goodO_guard (S : SimpCtx) (f : Nat) {α : Type} (x : MS α) (st st1 : SimpState)
    (fin : SimpState → SimpState) (hx : GoodO S f x st1)
    (h1 : st.m_num_steps ≤ st1.m_num_steps)
    (h2 : (fin x.2).m_num_steps = x.2.m_num_steps)
    (h3 : (fin x.2).m_rule_sets = st.m_rule_sets)
    (h4 : (fin x.2).m_ctx = st.m_ctx) :
    GoodO S f (finallyO x fin) st := by
  obtain ⟨g1, g2, g3, g4⟩ := hx
  replace g1 : st1.m_num_steps ≤ x.2.m_num_steps := g1
  refine ⟨?_, h3, h4, ?_⟩
  · show st.m_num_steps ≤ (fin x.2).m_num_steps
    omega
  · intro hfuel
    show x.1 ≠ Outc.fuelOut
    exact g4 (by omega)

theorem goodO_of_eq {S : SimpCtx} {f : Nat} {α : Type} {x y : MS α} {st1 : SimpState}
    (h : GoodO S f x st1) (hxy : x = y) : GoodO S f y st1 := hxy ▸ h

theorem good_sacLoop (S : SimpCtx) (f : Nat) (sfn : SimpFn)
    (hs : ∀ e st, GoodO S f (sfn e st) st) (e : Expr) :
    ∀ (infos : List CongrArgInfo) (new_args proof_args : List Expr) (changed : Bool)
      (st : SimpState),
    GoodO S f (sacLoop S sfn e infos new_args proof_args changed st) st := by
  intro infos
  induction infos with
  | nil => intro na pa ch st; exact goodO_okP S f _ st
  | cons info rest ih =>
    intro na pa ch st
    simp only [sacLoop]
    split
    · split
      · -- argument without context
        refine goodO_bind S f _ _ st (hs _ st) ?_
        intro res_a st1
        dsimp only
        split
        · split
          · refine goodO_bind S f _ _ st1 (good_simplifyAppDefault S f sfn hs e st1) ?_
            intro r st2
            exact goodO_okP S f _ st2
          · exact ih _ _ _ st1
        · exact ih _ _ _ st1
      · -- contextual argument
        split
        · -- proofs disabled: updt_rule_set guard only
          refine goodO_bind S f _ _ st ?_ ?_
          · refine goodO_guard S f _ st _ _ (hs _ _) (le_of_eq rfl) rfl ?_ ?_
            · show ((sfn _ _).2.m_rule_sets).set 0 _ = st.m_rule_sets
              rw [(hs _ _).2.1]
              exact set_set_getD st.m_rule_sets _
            · exact (hs _ _).2.2.1
          · intro res_a st2
            exact ih _ _ _ st2
        · -- proofs enabled: flet depth + updt_rule_set + freset cache
          split
          next res_a st2 heq =>
            obtain ⟨g1, g2, g3, g4⟩ := goodO_of_eq (hs (argE e info.arg_pos) _) heq
            split
            · -- ensure_homogeneous failed: fallback under the guards
              have hbind := goodO_bind S f _
                (fun r st3 => ((Outc.ok (SacOut.fell r) : Outc SacOut), st3)) st2
                (good_simplifyAppDefault S f sfn hs e st2)
                (fun r st3 => goodO_okP S f _ st3)
              refine goodO_guard S f _ st st2 _ hbind g1 rfl ?_ ?_
              · show ((bindO (simplifyAppDefault S sfn e st2) _).2.m_rule_sets).set 0 _
                    = st.m_rule_sets
                rw [hbind.2.1, g2]
                exact set_set_getD st.m_rule_sets _
              · show (bindO (simplifyAppDefault S sfn e st2) _).2.m_ctx = st.m_ctx
                rw [hbind.2.2.1, g3]
            · -- normal continuation at the unwound state
              refine goodO_mono S f _ st _ (ih _ _ _ _) g1 ?_ g3
              show (st2.m_rule_sets.set 0 _) = st.m_rule_sets
              rw [g2]
              exact set_set_getD st.m_rule_sets _
          next m st2 heq =>
            obtain ⟨g1, g2, g3, _⟩ := goodO_of_eq (hs (argE e info.arg_pos) _) heq
            refine ⟨g1, ?_, g3, fun _ h => nomatch h⟩
            show (st2.m_rule_sets.set 0 _) = st.m_rule_sets
            rw [g2]
            exact set_set_getD st.m_rule_sets _
          next st2 heq =>
            obtain ⟨g1, g2, g3, g4⟩ := goodO_of_eq (hs (argE e info.arg_pos) _) heq
            refine ⟨g1, ?_, g3, ?_⟩
            · show (st2.m_rule_sets.set 0 _) = st.m_rule_sets
              rw [g2]
              exact set_set_getD st.m_rule_sets _
            · intro hfuel
              exact absurd rfl (g4 hfuel)
    · exact ih _ _ _ st

theorem goodO_set_context (S : SimpCtx) (f : Nat) {α : Type} (x : MS α) (st : SimpState)
    (newctx : CtxE)
    (hx : GoodO S f x { st with m_ctx := newctx, m_cache := ([] : List (Expr × Result)) }) :
    GoodO S f (finallyO x (fun s => { s with m_ctx := st.m_ctx, m_cache := st.m_cache })) st :=
  ⟨hx.1, hx.2.1, rfl, fun h => hx.2.2.2 h⟩

theorem good_simplifyAppCongr (S : SimpCtx) (f : Nat) (sfn : SimpFn)
    (hs : ∀ e st, GoodO S f (sfn e st) st) (e : Expr) (cg : CongrThm) (st : SimpState) :
    GoodO S f (simplifyAppCongr S sfn e cg st) st := by
  unfold simplifyAppCongr
  refine goodO_bind S f _ _ st (good_sacLoop S f sfn hs e _ _ _ _ st) ?_
  intro outn st1
  cases outn with
  | fell r => exact goodO_okP S f _ st1
  | done na pa ch =>
    dsimp only
    split
    · exact good_rewriteApp S f sfn hs _ _ st1
    · split
      · exact good_rewriteApp S f sfn hs _ _ st1
      · exact good_rewriteApp S f sfn hs _ _ st1

theorem good_simplifyApp (S : SimpCtx) (f : Nat) (sfn : SimpFn)
    (hs : ∀ e st, GoodO S f (sfn e st) st) (e : Expr) (st : SimpState) :
    GoodO S f (simplifyApp S sfn e st) st := by
  unfold simplifyApp
  split
  · dsimp only
    split
    · refine goodO_bind S f _ _ st (hs _ st) ?_
      intro ra st'
      exact goodO_okP S f _ st'
    · exact hs _ st
  · split
    · split
      · exact good_simplifyAppCongr S f sfn hs e _ st
      · exact good_simplifyAppDefault S f sfn hs e st
    · exact good_simplifyAppDefault S f sfn hs e st

theorem good_simplifyLambda (S : SimpCtx) (f : Nat) (sfn : SimpFn)
    (hs : ∀ e st, GoodO S f (sfn e st) st) (e : Expr) (st : SimpState) :
    GoodO S f (simplifyLambda S sfn e st) st := by
  unfold simplifyLambda
  split
  · exact goodO_okP S f _ st
  · dsimp only
    apply goodO_set_context
    refine goodO_bind S f _ _ _ (hs _ _) ?_
    intro res st2
    dsimp only
    split
    · exact good_rewriteLambda S f sfn hs _ _ st2
    · split
      · exact good_rewriteLambda S f sfn hs _ _ st2
      · split
        · exact good_rewriteLambda S f sfn hs _ _ st2
        · exact good_rewriteLambda S f sfn hs _ _ st2

theorem good_simplifyPi (S : SimpCtx) (f : Nat) (sfn : SimpFn)
    (hs : ∀ e st, GoodO S f (sfn e st) st) (e : Expr) (st : SimpState) :
    GoodO S f (simplifyPi S sfn e st) st := by
  unfold simplifyPi
  split
  · exact goodO_okP S f _ st
  · split
    · dsimp only
      apply goodO_set_context
      refine goodO_bind S f _ _ _ (hs _ _) ?_
      intro res st2
      dsimp only
      split
      · exact good_rewriteE S f sfn hs _ _ st2
      · split
        · exact good_rewriteE S f sfn hs _ _ st2
        · split
          · exact good_rewriteE S f sfn hs _ _ st2
          · exact good_rewriteE S f sfn hs _ _ st2
    · exact goodO_okP S f _ st

theorem good_simplifyConstant (S : SimpCtx) (f : Nat) (sfn : SimpFn)
    (hs : ∀ e st, GoodO S f (sfn e st) st) (e : Expr) (st : SimpState) :
    GoodO S f (simplifyConstant S sfn e st) st := by
  unfold simplifyConstant
  split
  · split
    · dsimp only
      split
      · split
        · exact goodO_errP S f _ st
        · split
          · exact goodO_okP S f _ st
          · exact hs _ st
      · split
        · split
          · exact goodO_errP S f _ st
          · split
            · exact goodO_okP S f _ st
            · exact good_rewriteE S f sfn hs _ _ st
        · exact good_rewriteE S f sfn hs _ _ st
    · exact good_rewriteE S f sfn hs _ _ st
  · exact good_rewriteE S f sfn hs _ _ st

theorem good_saveR (S : SimpCtx) (f : Nat) (e : Expr) (x : MS Result) (st : SimpState)
    (hx : GoodO S f x st) : GoodO S f (saveR S e x) st := by
  obtain ⟨o, st1⟩ := x
  cases o with
  | ok r =>
    obtain ⟨g1, g2, g3, _⟩ := hx
    unfold saveR
    dsimp only
    split
    · exact ⟨g1, g2, g3, fun _ h => nomatch h⟩
    · exact ⟨g1, g2, g3, fun _ h => nomatch h⟩
  | err m => exact hx
  | fuelOut => exact hx

theorem good_simplifyStep (S : SimpCtx) (f : Nat) (sfn : SimpFn)
    (hs : ∀ e st, GoodO S f (sfn e st) st) (e : Expr) (st : SimpState) :
    GoodO S f (simplifyStep S sfn e st) st := by
  unfold simplifyStep
  split
  · exact good_saveR S f _ _ st (goodO_okP S f _ st)
  · exact good_saveR S f _ _ st (good_simplifyConstant S f sfn hs _ st)
  · exact good_saveR S f _ _ st (goodO_okP S f _ st)
  · exact good_saveR S f _ _ st (goodO_okP S f _ st)
  · exact good_saveR S f _ _ st (goodO_okP S f _ st)
  · exact good_saveR S f _ _ st (good_simplifyApp S f sfn hs _ st)
  · exact good_saveR S f _ _ st (good_simplifyLambda S f sfn hs _ st)
  · exact good_saveR S f _ _ st (good_simplifyPi S f sfn hs _ st)
  · exact good_saveR S f _ _ st (hs _ st)

theorem goodO_succ_entry {S : SimpCtx} {f : Nat} {α : Type} {x : MS α} {st : SimpState}
    (h : GoodO S f x { st with m_num_steps := st.m_num_steps + 1 }) :
    GoodO S (f + 1) x st := by
  obtain ⟨g1, g2, g3, g4⟩ := h
  replace g1 : st.m_num_steps + 1 ≤ x.2.m_num_steps := g1
  refine ⟨by omega, g2, g3, fun hf => g4 ?_⟩
  show S.cfg.m_max_steps < f + (st.m_num_steps + 1)
  omega

/-- The combined frame and fuel invariant of the driver: the step counter is
monotone, the rule sets and the context are restored on every exit path
(including exceptional ones), and fuel beyond the remaining step budget is
never exhausted. -/
theorem good_simplifyE (S : SimpCtx) :
    ∀ (fuel : Nat) (e : Expr) (st : SimpState), GoodO S fuel (simplifyE S fuel e st) st := by
  intro fuel
  induction fuel with
  | zero =>
    intro e st
    simp only [simplifyE]
    split
    · exact ⟨Nat.le_succ _, rfl, rfl, fun _ h => nomatch h⟩
    · refine ⟨Nat.le_succ _, rfl, rfl, ?_⟩
      intro hfuel
      rename_i hcond
      exfalso
      omega
  | succ f ih =>
    intro e st
    simp only [simplifyE]
    split
    · exact ⟨Nat.le_succ _, rfl, rfl, fun _ h => nomatch h⟩
    · split
      · exact ⟨Nat.le_succ _, rfl, rfl, fun _ h => nomatch h⟩
      · exact goodO_succ_entry (good_simplifyStep S f (simplifyE S f) ih _ _)

theorem cleanP_ok {α : Type} {P : α → Prop} {st : SimpState} (h : CleanC st) {a : α}
    (ha : P a) : CleanP P (Outc.ok a, st) :=
  ⟨h, fun _ hx => by cases hx; exact ha⟩

theorem cleanP_err {α : Type} {P : α → Prop} {st : SimpState} (h : CleanC st) (m : String) :
    CleanP P ((Outc.err m : Outc α), st) := ⟨h, fun _ hx => nomatch hx⟩

theorem cleanP_fuel {α : Type} {P : α → Prop} {st : SimpState} (h : CleanC st) :
    CleanP P ((Outc.fuelOut : Outc α), st) := ⟨h, fun _ hx => nomatch hx⟩

theorem cleanP_bind {α β : Type} {P : α → Prop} {Q : β → Prop} {x : MS α}
    {k : α → SimpState → MS β} (hx : CleanP P x)
    (hk : ∀ a st', P a → CleanC st' → CleanP Q (k a st')) : CleanP Q (bindO x k) := by
  obtain ⟨o, st1⟩ := x
  obtain ⟨h1, h2⟩ := hx
  cases o with
  | ok a => exact hk a st1 (h2 a rfl) h1
  | err m => exact ⟨h1, fun _ hx => nomatch hx⟩
  | fuelOut => exact ⟨h1, fun _ hx => nomatch hx⟩

theorem cleanP_of_eq {α : Type} {P : α → Prop} {x y : MS α} (h : CleanP P x) (hxy : x = y) :
    CleanP P y := hxy ▸ h

theorem lookupC_mem (c : List (Expr × Result)) (e : Expr) (r : Result)
    (h : lookupC c e = some r) : ∃ k, (k, r) ∈ c := by
  induction c with
  | nil => cases h
  | cons p rest ih =>
    obtain ⟨k, v⟩ := p
    unfold lookupC at h
    split at h
    · cases h
      exact ⟨k, List.mem_cons_self _ _⟩
    · obtain ⟨k', hk⟩ := ih h
      exact ⟨k', List.mem_cons_of_mem _ hk⟩

theorem mkTransResult4_off (S : SimpCtx) (hp : S.cfg.m_proofs_enabled = false)
    (ctx : CtxE) (a : Expr) (b_res : Result) (c H_bc : Expr) :
    mkTransResult4 S ctx a b_res c H_bc = ⟨c, none, false⟩ := by
  unfold mkTransResult4
  rw [hp]
  simp

theorem mkTransResult3_off (S : SimpCtx) (hp : S.cfg.m_proofs_enabled = false)
    (ctx : CtxE) (a : Expr) (b_res c_res : Result) :
    mkTransResult3 S ctx a b_res c_res = c_res := by
  unfold mkTransResult3
  rw [hp]
  simp

theorem clean_condPremises (S : SimpCtx) (sfn : SimpFn)
    (hs : ∀ e st, CleanC st → CleanP CleanR (sfn e st)) :
    ∀ (subst : List (Option Expr)) (ceq : Expr) (acc : List Expr) (st : SimpState),
    CleanC st → CleanP (fun _ => True) (condPremises S sfn subst ceq acc st) := by
  intro subst
  induction subst with
  | nil => intro ceq acc st hst; exact cleanP_ok hst trivial
  | cons hd rest ih =>
    intro ceq acc st hst
    cases hd with
    | some v => simp only [condPremises]; exact ih _ _ st hst
    | none =>
      simp only [condPremises]
      split
      · refine cleanP_bind (hs _ st hst) ?_
        intro d_res st' _ hst'
        split
        · split
          · exact ih _ _ st' hst'
          · split
            · exact ih _ _ st' hst'
            · exact cleanP_ok hst' trivial
        · exact cleanP_ok hst' trivial
      · exact cleanP_ok hst trivial

theorem clean_checkRule (S : SimpCtx) (sfn : SimpFn)
    (hs : ∀ e st, CleanC st → CleanP CleanR (sfn e st)) (target : Expr) (rule : Rule)
    (st : SimpState) (hst : CleanC st) :
    CleanP (fun _ => True) (checkRule S sfn target rule st) := by
  unfold checkRule
  split
  · exact cleanP_ok hst trivial
  · split
    · dsimp only
      split
      · exact cleanP_ok hst trivial
      · exact cleanP_ok hst trivial
    · refine cleanP_bind (clean_condPremises S sfn hs _ _ _ st hst) ?_
      intro res st' _ hst'
      cases res with
      | none => exact cleanP_ok hst' trivial
      | some pc =>
        obtain ⟨pa, ceq⟩ := pc
        dsimp only
        split
        · exact cleanP_ok hst' trivial
        · exact cleanP_ok hst' trivial

theorem clean_findMatchAux (S : SimpCtx) (sfn : SimpFn)
    (hs : ∀ e st, CleanC st → CleanP CleanR (sfn e st)) (target : Expr) :
    ∀ (rules : List Rule) (st : SimpState), CleanC st →
    CleanP (fun _ => True) (findMatchAux S sfn target rules st) := by
  intro rules
  induction rules with
  | nil => intro st hst; exact cleanP_ok hst trivial
  | cons rule rest ih =>
    intro st hst
    simp only [findMatchAux]
    refine cleanP_bind (clean_checkRule S sfn hs target rule st hst) ?_
    intro res st' _ hst'
    cases res with
    | some v => exact cleanP_ok hst' trivial
    | none => exact ih st' hst'

theorem clean_rwSets (S : SimpCtx) (hp : S.cfg.m_proofs_enabled = false) (sfn : SimpFn)
    (hs : ∀ e st, CleanC st → CleanP CleanR (sfn e st)) (lhs : Expr) (rhs : Result)
    (hrhs : CleanR rhs) (target : Expr) :
    ∀ (sets : List RuleSet) (st : SimpState), CleanC st →
    CleanP CleanR (rwSets S sfn lhs rhs target sets st) := by
  intro sets
  induction sets with
  | nil =>
    intro st hst
    simp only [rwSets]
    split
    · refine cleanP_bind (hs _ st hst) ?_
      intro r st' hr hst'
      rw [mkTransResult3_off S hp]
      exact cleanP_ok hst' hr
    · exact cleanP_ok hst hrhs
  | cons rs rest ih =>
    intro st hst
    simp only [rwSets]
    refine cleanP_bind (clean_findMatchAux S sfn hs target rs.rules st hst) ?_
    intro hit st' _ hst'
    cases hit with
    | none => exact ih st' hst'
    | some v =>
      obtain ⟨nr, np⟩ := v
      dsimp only
      rw [mkTransResult4_off S hp]
      split
      · exact cleanP_ok hst' ⟨rfl, rfl⟩
      · refine cleanP_bind (hs _ st' hst') ?_
        intro r2 st'' hr2 hst''
        rw [mkTransResult3_off S hp]
        exact cleanP_ok hst'' hr2

theorem clean_rewriteE (S : SimpCtx) (hp : S.cfg.m_proofs_enabled = false) (sfn : SimpFn)
    (hs : ∀ e st, CleanC st → CleanP CleanR (sfn e st)) (lhs : Expr) (rhs : Result)
    (hrhs : CleanR rhs) (st : SimpState) (hst : CleanC st) :
    CleanP CleanR (rewriteE S sfn lhs rhs st) :=
  clean_rwSets S hp sfn hs lhs rhs hrhs rhs.out st.m_rule_sets st hst

theorem clean_rewriteApp (S : SimpCtx) (hp : S.cfg.m_proofs_enabled = false) (sfn : SimpFn)
    (hs : ∀ e st, CleanC st → CleanP CleanR (sfn e st)) (lhs : Expr) (rhs : Result)
    (hrhs : CleanR rhs) (st : SimpState) (hst : CleanC st) :
    CleanP CleanR (rewriteApp S sfn lhs rhs st) := by
  unfold rewriteApp
  dsimp only
  obtain ⟨hr1, hr2⟩ := hrhs
  split
  · split
    · exact clean_rewriteE S hp sfn hs _ _ (by rw [hr1, hr2]; exact ⟨rfl, rfl⟩) st hst
    · split
      · exact clean_rewriteE S hp sfn hs _ _ (by rw [hr1, hr2]; exact ⟨rfl, rfl⟩) st hst
      · exact clean_rewriteE S hp sfn hs _ _ ⟨hr1, hr2⟩ st hst
  · split
    · exact clean_rewriteE S hp sfn hs _ _ (by rw [hr1, hr2]; exact ⟨rfl, rfl⟩) st hst
    · exact clean_rewriteE S hp sfn hs _ _ ⟨hr1, hr2⟩ st hst

theorem clean_rewriteLambda (S : SimpCtx) (hp : S.cfg.m_proofs_enabled = false) (sfn : SimpFn)
    (hs : ∀ e st, CleanC st → CleanP CleanR (sfn e st)) (lhs : Expr) (rhs : Result)
    (hrhs : CleanR rhs) (st : SimpState) (hst : CleanC st) :
    CleanP CleanR (rewriteLambda S sfn lhs rhs st) := by
  unfold rewriteLambda
  dsimp only
  split
  · repeat' split
    all_goals first
      | (rename_i hcond; rw [hp] at hcond; cases hcond)
      | exact clean_rewriteE S hp sfn hs _ _ ⟨rfl, rfl⟩ st hst
      | exact clean_rewriteE S hp sfn hs _ _ hrhs st hst
  · exact clean_rewriteE S hp sfn hs _ _ hrhs st hst

theorem cleanP_finallyRS {x : MS Result} (old0 : RuleSet) (h : CleanP CleanR x) :
    CleanP CleanR (finallyO x (fun s => { s with m_rule_sets := s.m_rule_sets.set 0 old0 })) :=
  ⟨h.1, h.2⟩

theorem cleanP_setctx {x : MS Result} (st : SimpState) (hst : CleanC st)
    (hx : ∀ r, x.1 = Outc.ok r → CleanR r) :
    CleanP CleanR (finallyO x (fun s => { s with m_ctx := st.m_ctx, m_cache := st.m_cache })) :=
  ⟨hst, hx⟩

theorem clean_sadLoop (S : SimpCtx) (sfn : SimpFn)
    (hs : ∀ e st, CleanC st → CleanP CleanR (sfn e st)) :
    ∀ (args : List Expr) (f_type new_f_type : Expr) (acc : SadAcc) (st : SimpState),
    CleanC st → CleanP (fun _ => True) (sadLoop S sfn args f_type new_f_type acc st) := by
  intro args
  induction args with
  | nil => intro ft nft acc st hst; exact cleanP_ok hst trivial
  | cons a rest ih =>
    intro ft nft acc st hst
    simp only [sadLoop]
    split
    · refine cleanP_bind (hs a st hst) ?_
      intro res st' _ hst'
      exact ih _ _ _ st' hst'
    · exact ih _ _ _ st hst

theorem clean_simplifyAppDefault (S : SimpCtx) (hp : S.cfg.m_proofs_enabled = false)
    (sfn : SimpFn) (hs : ∀ e st, CleanC st → CleanP CleanR (sfn e st)) (e : Expr)
    (st : SimpState) (hst : CleanC st) :
    CleanP CleanR (simplifyAppDefault S sfn e st) := by
  unfold simplifyAppDefault
  refine cleanP_bind (hs _ st hst) ?_
  intro res_f st1 _ hst1
  dsimp only
  refine cleanP_bind (clean_sadLoop S sfn hs _ _ _ _ st1 hst1) ?_
  intro acc st2 _ hst2
  split
  · exact clean_rewriteApp S hp sfn hs _ _ ⟨rfl, rfl⟩ st2 hst2
  · split
    · exact clean_rewriteApp S hp sfn hs _ _ ⟨rfl, rfl⟩ st2 hst2
    · rename_i hcond
      rw [hp] at hcond
      simp at hcond

theorem clean_sacLoop (S : SimpCtx) (hp : S.cfg.m_proofs_enabled = false) (sfn : SimpFn)
    (hs : ∀ e st, CleanC st → CleanP CleanR (sfn e st)) (e : Expr) :
    ∀ (infos : List CongrArgInfo) (new_args proof_args : List Expr) (changed : Bool)
      (st : SimpState), CleanC st →
    CleanP CleanSac (sacLoop S sfn e infos new_args proof_args changed st) := by
  intro infos
  induction infos with
  | nil => intro na pa ch st hst; exact cleanP_ok hst trivial
  | cons info rest ih =>
    intro na pa ch st hst
    simp only [sacLoop]
    split
    · split
      · refine cleanP_bind (hs _ st hst) ?_
        intro res_a st1 _ hst1
        dsimp only
        split
        · rename_i hcond
          rw [hp] at hcond
          cases hcond
        · exact ih _ _ _ st1 hst1
      · split
        · refine cleanP_bind (cleanP_finallyRS _ (hs _ _ hst)) ?_
          intro res st2 _ hst2
          exact ih _ _ _ st2 hst2
        · rename_i hcond
          rw [hp] at hcond
          simp at hcond
    · exact ih _ _ _ st hst

theorem clean_simplifyAppCongr (S : SimpCtx) (hp : S.cfg.m_proofs_enabled = false)
    (sfn : SimpFn) (hs : ∀ e st, CleanC st → CleanP CleanR (sfn e st)) (e : Expr)
    (cg : CongrThm) (st : SimpState) (hst : CleanC st) :
    CleanP CleanR (simplifyAppCongr S sfn e cg st) := by
  unfold simplifyAppCongr
  refine cleanP_bind (clean_sacLoop S hp sfn hs e _ _ _ _ st hst) ?_
  intro outn st1 hout hst1
  cases outn with
  | fell r => exact cleanP_ok hst1 hout
  | done na pa ch =>
    dsimp only
    split
    · exact clean_rewriteApp S hp sfn hs _ _ ⟨rfl, rfl⟩ st1 hst1
    · split
      · exact clean_rewriteApp S hp sfn hs _ _ ⟨rfl, rfl⟩ st1 hst1
      · rename_i hcond
        rw [hp] at hcond
        simp at hcond

theorem clean_simplifyApp (S : SimpCtx) (hp : S.cfg.m_proofs_enabled = false) (sfn : SimpFn)
    (hs : ∀ e st, CleanC st → CleanP CleanR (sfn e st)) (e : Expr) (st : SimpState)
    (hst : CleanC st) : CleanP CleanR (simplifyApp S sfn e st) := by
  unfold simplifyApp
  split
  · dsimp only
    split
    · rename_i hcond
      rw [hp] at hcond
      cases hcond
    · exact hs _ st hst
  · split
    · split
      · exact clean_simplifyAppCongr S hp sfn hs e _ st hst
      · exact clean_simplifyAppDefault S hp sfn hs e st hst
    · exact clean_simplifyAppDefault S hp sfn hs e st hst

theorem clean_simplifyLambda (S : SimpCtx) (hp : S.cfg.m_proofs_enabled = false) (sfn : SimpFn)
    (hs : ∀ e st, CleanC st → CleanP CleanR (sfn e st)) (e : Expr) (st : SimpState)
    (hst : CleanC st) : CleanP CleanR (simplifyLambda S sfn e st) := by
  unfold simplifyLambda
  split
  · exact cleanP_ok hst ⟨rfl, rfl⟩
  · dsimp only
    refine cleanP_setctx st hst ?_
    refine (cleanP_bind (hs (abstBody e) _ (by intro p hmem; cases hmem)) ?_).2
    intro res st2 _ hst2
    dsimp only
    split
    · exact clean_rewriteLambda S hp sfn hs _ _ ⟨rfl, rfl⟩ st2 hst2
    · split
      · exact clean_rewriteLambda S hp sfn hs _ _ ⟨rfl, rfl⟩ st2 hst2
      · rename_i hcond
        rw [hp] at hcond
        simp at hcond

theorem clean_simplifyPi (S : SimpCtx) (hp : S.cfg.m_proofs_enabled = false) (sfn : SimpFn)
    (hs : ∀ e st, CleanC st → CleanP CleanR (sfn e st)) (e : Expr) (st : SimpState)
    (hst : CleanC st) : CleanP CleanR (simplifyPi S sfn e st) := by
  unfold simplifyPi
  split
  · exact cleanP_ok hst ⟨rfl, rfl⟩
  · split
    · dsimp only
      refine cleanP_setctx st hst ?_
      refine (cleanP_bind (hs (abstBody e) _ (by intro p hmem; cases hmem)) ?_).2
      intro res st2 _ hst2
      dsimp only
      split
      · exact clean_rewriteE S hp sfn hs _ _ ⟨rfl, rfl⟩ st2 hst2
      · split
        · exact clean_rewriteE S hp sfn hs _ _ ⟨rfl, rfl⟩ st2 hst2
        · rename_i hcond
          rw [hp] at hcond
          simp at hcond
    · exact cleanP_ok hst ⟨rfl, rfl⟩

theorem clean_simplifyConstant (S : SimpCtx) (hp : S.cfg.m_proofs_enabled = false)
    (sfn : SimpFn) (hs : ∀ e st, CleanC st → CleanP CleanR (sfn e st)) (e : Expr)
    (st : SimpState) (hst : CleanC st) : CleanP CleanR (simplifyConstant S sfn e st) := by
  unfold simplifyConstant
  split
  · split
    · dsimp only
      split
      · split
        · exact cleanP_err hst _
        · split
          · exact cleanP_ok hst ⟨rfl, rfl⟩
          · exact hs _ st hst
      · split
        · split
          · exact cleanP_err hst _
          · split
            · exact cleanP_ok hst ⟨rfl, rfl⟩
            · exact clean_rewriteE S hp sfn hs _ _ ⟨rfl, rfl⟩ st hst
        · exact clean_rewriteE S hp sfn hs _ _ ⟨rfl, rfl⟩ st hst
    · exact clean_rewriteE S hp sfn hs _ _ ⟨rfl, rfl⟩ st hst
  · exact clean_rewriteE S hp sfn hs _ _ ⟨rfl, rfl⟩ st hst

theorem clean_saveR (S : SimpCtx) (e : Expr) (x : MS Result) (hx : CleanP CleanR x) :
    CleanP CleanR (saveR S e x) := by
  obtain ⟨o, st1⟩ := x
  cases o with
  | ok r =>
    obtain ⟨h1, h2⟩ := hx
    have hr := h2 r rfl
    unfold saveR
    dsimp only
    split
    · refine ⟨?_, ?_⟩
      · intro p hp'
        rcases List.mem_cons.mp hp' with h | h
        · rw [h]
          exact ⟨hr.1, hr.2⟩
        · exact h1 p h
      · intro a ha
        cases ha
        exact ⟨hr.1, hr.2⟩
    · exact ⟨h1, fun a ha => by cases ha; exact hr⟩
  | err m => exact hx
  | fuelOut => exact hx

theorem clean_simplifyStep (S : SimpCtx) (hp : S.cfg.m_proofs_enabled = false) (sfn : SimpFn)
    (hs : ∀ e st, CleanC st → CleanP CleanR (sfn e st)) (e : Expr) (st : SimpState)
    (hst : CleanC st) : CleanP CleanR (simplifyStep S sfn e st) := by
  unfold simplifyStep
  split
  · exact clean_saveR S _ _ (cleanP_ok hst ⟨rfl, rfl⟩)
  · exact clean_saveR S _ _ (clean_simplifyConstant S hp sfn hs _ st hst)
  · exact clean_saveR S _ _ (cleanP_ok hst ⟨rfl, rfl⟩)
  · exact clean_saveR S _ _ (cleanP_ok hst ⟨rfl, rfl⟩)
  · exact clean_saveR S _ _ (cleanP_ok hst ⟨rfl, rfl⟩)
  · exact clean_saveR S _ _ (clean_simplifyApp S hp sfn hs _ st hst)
  · exact clean_saveR S _ _ (clean_simplifyLambda S hp sfn hs _ st hst)
  · exact clean_saveR S _ _ (clean_simplifyPi S hp sfn hs _ st hst)
  · exact clean_saveR S _ _ (hs _ st hst)

/-- The proof-elision invariant of the driver: with proof generation disabled
every normally returned result carries no proof and no heterogeneous-equality
flag, and the cache only ever holds such results. -/
theorem clean_simplifyE (S : SimpCtx) (hp : S.cfg.m_proofs_enabled = false) :
    ∀ (fuel : Nat) (e : Expr) (st : SimpState), CleanC st →
    CleanP CleanR (simplifyE S fuel e st) := by
  intro fuel
  induction fuel with
  | zero =>
    intro e st hst
    simp only [simplifyE]
    split
    · exact cleanP_err hst _
    · exact cleanP_fuel hst
  | succ f ih =>
    intro e st hst
    simp only [simplifyE]
    split
    · exact cleanP_err hst _
    · split
      · rename_i r hlook
        refine cleanP_ok hst ?_
        split at hlook
        · obtain ⟨k, hk⟩ := lookupC_mem _ _ _ hlook
          exact hst (k, r) hk
        · cases hlook
      · exact clean_simplifyStep S hp (simplifyE S f) ih _ _ hst

/-- C7: caller-supplied rule sets are never modified by a run: the rule-set
vector is restored by every call on every exit path (contextual insertions go
through the scoped `updt_rule_set` with save/restore), the constructor builds
a simplifier-owned set 0 only in contextual mode, and the final state of the
public operation still holds exactly the constructed vector. -/
theorem C7_rule_sets_read_only (O : Oracle) (cfg : Cfg) (caller : List RuleSet)
    (fuel : Nat) (e : Expr) (ctx : CtxE) (st : SimpState) :
    (simplifyE (mkSimpCtx O cfg caller) fuel e st).2.m_rule_sets = st.m_rule_sets
    ∧ initRuleSets cfg caller = (if cfg.m_contextual then [emptyRuleSet] else []) ++ caller
    ∧ (simplifierMain O cfg caller fuel e ctx).2.m_rule_sets = initRuleSets cfg caller := by
  refine ⟨(good_simplifyE _ fuel e st).2.1, rfl, ?_⟩
  unfold simplifierMain
  have h := (good_simplifyE (mkSimpCtx O cfg caller) fuel e
    ⟨ctx, initRuleSets cfg caller, [], 0, 0⟩).2.1
  rcases hrun : simplifyE (mkSimpCtx O cfg caller) fuel e
      ⟨ctx, initRuleSets cfg caller, [], 0, 0⟩ with ⟨o, st'⟩
  rw [hrun] at h
  cases o <;> simp [hrun] <;> exact h

/-- C5: with any finite `max_steps` the driver terminates: given fuel beyond
the remaining step budget the embedding never runs out of fuel, so every call
returns a result or raises; the step counter is incremented on every entry of
`simplify`; and when the incremented count exceeds `max_steps` the exhaustion
error is raised immediately.  The last conjunct instantiates this for the
public operation, whose step counter starts at zero. -/
theorem C5_termination_step_bound (O : Oracle) (cfg : Cfg) (caller : List RuleSet)
    (fuel : Nat) (e : Expr) (ctx : CtxE) (st : SimpState) :
    (cfg.m_max_steps < fuel + st.m_num_steps →
      (simplifyE (mkSimpCtx O cfg caller) fuel e st).1 ≠ Outc.fuelOut)
    ∧ st.m_num_steps + 1 ≤ (simplifyE (mkSimpCtx O cfg caller) fuel e st).2.m_num_steps
    ∧ (cfg.m_max_steps ≤ st.m_num_steps →
        simplifyE (mkSimpCtx O cfg caller) fuel e st
          = (.err "simplifier failed, maximum number of steps exceeded",
             { st with m_num_steps := st.m_num_steps + 1 }))
    ∧ (cfg.m_max_steps < fuel → (simplifierMain O cfg caller fuel e ctx).1 ≠ Outc.fuelOut) := by
  refine ⟨(good_simplifyE (mkSimpCtx O cfg caller) fuel e st).2.2.2, ?_, ?_, ?_⟩
  · cases fuel with
    | zero =>
      simp only [simplifyE]
      split
      · exact Nat.le_refl _
      · exact Nat.le_refl _
    | succ f =>
      simp only [simplifyE]
      split
      · exact Nat.le_refl _
      · split
        · exact Nat.le_refl _
        · exact (good_simplifyStep (mkSimpCtx O cfg caller) f (simplifyE (mkSimpCtx O cfg caller) f)
            (good_simplifyE (mkSimpCtx O cfg caller) f) _
            { st with m_num_steps := st.m_num_steps + 1 }).1
  · intro hle
    cases fuel with
    | zero =>
      simp only [simplifyE]
      rw [if_pos (show st.m_num_steps + 1 > (mkSimpCtx O cfg caller).cfg.m_max_steps by
        show st.m_num_steps + 1 > cfg.m_max_steps
        omega)]
    | succ f =>
      simp only [simplifyE]
      rw [if_pos (show st.m_num_steps + 1 > (mkSimpCtx O cfg caller).cfg.m_max_steps by
        show st.m_num_steps + 1 > cfg.m_max_steps
        omega)]
  · intro hfuel
    unfold simplifierMain
    have h4 := (good_simplifyE (mkSimpCtx O cfg caller) fuel e
      ⟨ctx, initRuleSets cfg caller, [], 0, 0⟩).2.2.2 (by show cfg.m_max_steps < fuel + 0; omega)
    rcases hrun : simplifyE (mkSimpCtx O cfg caller) fuel e
        ⟨ctx, initRuleSets cfg caller, [], 0, 0⟩ with ⟨o, st'⟩
    rw [hrun] at h4
    cases o with
    | ok r => simp [hrun]
    | err m => simp [hrun]
    | fuelOut => exact absurd rfl h4

/-- C3: when proof generation is disabled no internal result carries a proof
or a heterogeneous-equality flag, and the pair returned by the public
operation has a proof component syntactically equal to
`refl(infer_type(e'), e')`. -/
theorem C3_proofs_off_reflexivity (O : Oracle) (cfg : Cfg) (caller : List RuleSet)
    (fuel : Nat) (e : Expr) (ctx : CtxE) (hp : cfg.m_proofs_enabled = false) :
    (∀ r st',
      simplifyE (mkSimpCtx O cfg caller) fuel e ⟨ctx, initRuleSets cfg caller, [], 0, 0⟩
        = (.ok r, st') → r.pf = none ∧ r.heq_proof = false)
    ∧ (∀ e' pf, (simplifierMain O cfg caller fuel e ctx).1 = .ok (e', pf) →
        pf = O.mkRefl (O.inferType ctx e') e') := by
  have hcl := clean_simplifyE (mkSimpCtx O cfg caller) hp fuel e
    ⟨ctx, initRuleSets cfg caller, [], 0, 0⟩ (by intro p hmem; cases hmem)
  constructor
  · intro r st' hrun
    exact hcl.2 r (by rw [hrun])
  · intro e' pf hmain
    unfold simplifierMain at hmain
    rcases hrun : simplifyE (mkSimpCtx O cfg caller) fuel e
        ⟨ctx, initRuleSets cfg caller, [], 0, 0⟩ with ⟨o, st'⟩
    cases o with
    | ok r =>
      simp only [hrun] at hmain
      have h1 : r.out = e' ∧ getProofE (mkSimpCtx O cfg caller) st'.m_ctx r = pf := by
        simpa using hmain
      have hclean := hcl.2 r (by rw [hrun])
      have hctx : st'.m_ctx = ctx := by
        have hg := (good_simplifyE (mkSimpCtx O cfg caller) fuel e
          ⟨ctx, initRuleSets cfg caller, [], 0, 0⟩).2.2.1
        rw [hrun] at hg
        exact hg
      rw [← h1.2, hctx, ← h1.1]
      unfold getProofE
      rw [hclean.1]
      rfl
    | err m => simp [hrun] at hmain
    | fuelOut => simp [hrun] at hmain

theorem saveR_off (S : SimpCtx) (hm : S.cfg.m_memoize = false) (e : Expr) (x : MS Result) :
    saveR S e x = x := by
  obtain ⟨o, st1⟩ := x
  cases o with
  | ok r => simp [saveR, hm]
  | err m => rfl
  | fuelOut => rfl

theorem saveR_fst (S : SimpCtx) (hms : ∀ x, S.o.maxShare x = x) (e : Expr) (x : MS Result) :
    (saveR S e x).1 = x.1 := by
  obtain ⟨o, st1⟩ := x
  cases o with
  | ok r =>
    unfold saveR
    dsimp only
    split
    · show Outc.ok ⟨S.o.maxShare r.out, r.pf, r.heq_proof⟩ = Outc.ok r
      rw [hms]
    · rfl
  | err m => rfl
  | fuelOut => rfl

theorem castResult_out (S : SimpCtx) (ctx : CtxE) (e A B : Expr) (ra : Result) :
    (castResult S ctx e A B ra).out = ra.out := by
  unfold castResult
  split
  · split <;> rfl
  · rfl

/-- C4: a rewrite rule marked `is_permutation` is accepted by `check_rule_fn`
only when its instantiated right-hand side is strictly below the matched
target in the designated total order; the guard is enforced in both the
fully-matched case and the conditional-rewriting case. -/
theorem C4_permutation_guard (S : SimpCtx) (sfn : SimpFn) (target : Expr) (rule : Rule)
    (st st' : SimpState) (nr np : Expr) (hperm : rule.is_perm = true)
    (hacc : checkRule S sfn target rule st = (.ok (some (nr, np)), st')) :
    S.o.exprLt nr target = true := by
  unfold checkRule at hacc
  split at hacc
  · simp at hacc
  · rename_i subst hmatch
    split at hacc
    · rename_i argvals hfound
      dsimp only at hacc
      split at hacc
      · simp at hacc
      · rename_i hguard
        rw [hperm] at hguard
        simp at hguard
        simp at hacc
        obtain ⟨⟨hnr, hnp⟩, hst⟩ := hacc
        rw [← hnr]
        exact hguard
    · rcases hcp : condPremises S sfn subst rule.ceq
          (if S.cfg.m_proofs_enabled = true then [rule.proof] else []) st with ⟨o, st2⟩
      rw [hcp] at hacc
      cases o with
      | ok res =>
        dsimp only [bindO] at hacc
        cases res with
        | none => simp at hacc
        | some pc =>
          obtain ⟨pa, ceq2⟩ := pc
          dsimp only at hacc
          split at hacc
          · simp at hacc
          · rename_i hguard
            rw [hperm] at hguard
            simp at hguard
            simp at hacc
            obtain ⟨⟨hnr, hnp⟩, hst⟩ := hacc
            rw [← hnr]
            exact hguard
      | err m => dsimp only [bindO] at hacc; simp at hacc
      | fuelOut => dsimp only [bindO] at hacc; simp at hacc

/-- C9: in `simplify_constant`, when evaluation is enabled the object returned
by `find_object` is dereferenced for the builtin test without a null guard;
a constant naming no environment object reaches the unguarded dereference
(modelled as an error outcome) instead of an error branch. -/
theorem C9_unguarded_object_deref (S : SimpCtx) (sfn : SimpFn) (n : NameE) (st : SimpState)
    (heval : S.cfg.m_eval = true) (hobj : S.o.findObject n = none)
    (hunf : (S.cfg.m_unfold && S.o.shouldUnfold none) = false) :
    simplifyConstant S sfn (Expr.const n) st
      = (.err "dereference of absent environment object", st) := by
  simp only [simplifyConstant]
  rw [hobj]
  simp [heval, hunf]

/-- C10: with `cast` imported, `simplify_app` on a cast application returns
directly after simplifying the inner argument: its value is a pure function
of that recursive call (no `rewrite_app`/`rewrite` is invoked on the cast
term), and the output expression of a normal return equals the simplified
inner argument's output. -/
theorem C10_cast_short_circuit (S : SimpCtx) (sfn : SimpFn) (e : Expr) (st : SimpState)
    (hcast : S.o.hasCast = true) (hc : isCast S e = true) :
    (simplifyApp S sfn e st
      = if S.cfg.m_proofs_enabled then
          bindO (sfn (argE e 4) st) fun res_a st' =>
            (.ok (castResult S st'.m_ctx e (argE e 1) (argE e 2) res_a), st')
        else sfn (argE e 4) st)
    ∧ (∀ r st', simplifyApp S sfn e st = (.ok r, st') →
        ∃ ra st2, sfn (argE e 4) st = (.ok ra, st2) ∧ r.out = ra.out) := by
  have h1 : simplifyApp S sfn e st
      = if S.cfg.m_proofs_enabled then
          bindO (sfn (argE e 4) st) fun res_a st' =>
            (.ok (castResult S st'.m_ctx e (argE e 1) (argE e 2) res_a), st')
        else sfn (argE e 4) st := by
    unfold simplifyApp
    rw [hcast, hc]
    rfl
  refine ⟨h1, ?_⟩
  intro r st' hr
  rw [h1] at hr
  by_cases hpe : S.cfg.m_proofs_enabled = true
  · rw [if_pos hpe] at hr
    rcases hx : sfn (argE e 4) st with ⟨o, st2⟩
    rw [hx] at hr
    cases o with
    | ok ra =>
      dsimp only [bindO] at hr
      have h2 : castResult S st2.m_ctx e (argE e 1) (argE e 2) ra = r ∧ st2 = st' := by
        simpa using hr
      exact ⟨ra, st2, rfl, by rw [← h2.1, castResult_out]⟩
    | err m => simp [bindO] at hr
    | fuelOut => simp [bindO] at hr
  · rw [if_neg hpe] at hr
    exact ⟨r, st', hr, rfl⟩

/-- C8: the driver simplifies `Let(name, v, body)` by recursing on
`instantiate(body, v)`: without memoization the whole call is literally the
recursive call at the bumped step counter, and with memoization (given that
maximal sharing is the identity on structurally equal graphs and the Let has
no cache entry) the returned result triple is that of the recursive call,
with no extra proof step contributed by the inlining. -/
theorem C8_let_inlining (S : SimpCtx) (f : Nat) (nm : NameE) (v b : Expr) (st : SimpState)
    (hstep : st.m_num_steps < S.cfg.m_max_steps) :
    (S.cfg.m_memoize = false →
      simplifyE S (f + 1) (Expr.letE nm v b) st
        = simplifyE S f (S.o.instN b [v]) { st with m_num_steps := st.m_num_steps + 1 })
    ∧ ((∀ x, S.o.maxShare x = x) →
        lookupC st.m_cache (Expr.letE nm v b) = none →
        (simplifyE S (f + 1) (Expr.letE nm v b) st).1
          = (simplifyE S f (S.o.instN b [v]) { st with m_num_steps := st.m_num_steps + 1 }).1) := by
  have hcond : ¬(st.m_num_steps + 1 > S.cfg.m_max_steps) := by omega
  have hA : S.cfg.m_memoize = false →
      simplifyE S (f + 1) (Expr.letE nm v b) st
        = simplifyE S f (S.o.instN b [v]) { st with m_num_steps := st.m_num_steps + 1 } := by
    intro hm
    have h0 : simplifyE S (f + 1) (Expr.letE nm v b) st
        = simplifyStep S (simplifyE S f) (Expr.letE nm v b)
            { st with m_num_steps := st.m_num_steps + 1 } := by
      simp only [simplifyE]
      rw [if_neg hcond, hm]
      rfl
    rw [h0]
    simp only [simplifyStep]
    rw [saveR_off S hm]
  refine ⟨hA, ?_⟩
  intro hms hmiss
  by_cases hm : S.cfg.m_memoize = true
  · have h0 : simplifyE S (f + 1) (Expr.letE nm v b) st
        = saveR S (Expr.letE nm v b)
            (simplifyE S f (S.o.instN b [v]) { st with m_num_steps := st.m_num_steps + 1 }) := by
      simp only [simplifyE]
      rw [if_neg hcond]
      simp [hm, hms, hmiss, simplifyStep]
    rw [h0]
    exact saveR_fst S hms _ _
  · have hm' : S.cfg.m_memoize = false := by revert hm; cases S.cfg.m_memoize <;> simp
    rw [hA hm']

theorem C4_permutation_guard_witness :
    Oc4.exprLt (Expr.value 7) (Expr.value 9) = true :=
  C4_permutation_guard Sc4 sfn0 (Expr.value 9) rule4 stw stw (Expr.value 7)
    (Expr.app [tname "pf", Expr.value 1]) rfl rfl

theorem C9_unguarded_object_deref_witness :
    simplifyConstant Sc9 sfn0 (Expr.const (NameE.mkStr "q")) stw
      = (.err "dereference of absent environment object", stw) :=
  C9_unguarded_object_deref Sc9 sfn0 (NameE.mkStr "q") stw rfl rfl rfl

theorem C10_cast_short_circuit_witness :
    simplifyApp Sc10 sfn0 eC10 stw
      = if Sc10.cfg.m_proofs_enabled then
          bindO (sfn0 (argE eC10 4) stw) fun res_a st' =>
            (.ok (castResult Sc10 st'.m_ctx eC10 (argE eC10 1) (argE eC10 2) res_a), st')
        else sfn0 (argE eC10 4) stw :=
  (C10_cast_short_circuit Sc10 sfn0 eC10 stw rfl rfl).1

theorem C8_let_inlining_witness :
    simplifyE SNoMemo (2 + 1) (Expr.letE (NameE.mkStr "z") (Expr.value 1) (Expr.value 2)) stw
      = simplifyE SNoMemo 2 (SNoMemo.o.instN (Expr.value 2) [Expr.value 1])
          { stw with m_num_steps := stw.m_num_steps + 1 } :=
  (C8_let_inlining SNoMemo 2 (NameE.mkStr "z") (Expr.value 1) (Expr.value 2) stw
    (by decide)).1 rfl

theorem C5_termination_step_bound_witness :
    simplifyE (mkSimpCtx O0 cfg0 []) 3 (Expr.value 1) ⟨[], [], [], 0, 1000000⟩
      = (.err "simplifier failed, maximum number of steps exceeded",
         (⟨[], [], [], 0, 1000001⟩ : SimpState)) :=
  (C5_termination_step_bound O0 cfg0 [] 3 (Expr.value 1) [] ⟨[], [], [], 0, 1000000⟩).2.2.1
    (by decide)

theorem C3_proofs_off_reflexivity_witness :
    Expr.app [tname "refl", Expr.type, Expr.value 2]
      = O0.mkRefl (O0.inferType [] (Expr.value 2)) (Expr.value 2) :=
  (C3_proofs_off_reflexivity O0 cfgPF [] 4 (Expr.value 2) [] rfl).2 (Expr.value 2)
    (Expr.app [tname "refl", Expr.type, Expr.value 2]) rfl

theorem cc_o (S : SimpCtx) (b : Bool) : (eqCond S b).o = S.o := rfl

theorem cc_thms (S : SimpCtx) (b : Bool) : (eqCond S b).congr_thms = S.congr_thms := rfl

theorem cc_pe (S : SimpCtx) (b : Bool) :
    (eqCond S b).cfg.m_proofs_enabled = S.cfg.m_proofs_enabled := rfl

theorem cc_ctxl (S : SimpCtx) (b : Bool) :
    (eqCond S b).cfg.m_contextual = S.cfg.m_contextual := rfl

theorem cc_sp (S : SimpCtx) (b : Bool) :
    (eqCond S b).cfg.m_single_pass = S.cfg.m_single_pass := rfl

theorem cc_beta (S : SimpCtx) (b : Bool) : (eqCond S b).cfg.m_beta = S.cfg.m_beta := rfl

theorem cc_eta (S : SimpCtx) (b : Bool) : (eqCond S b).cfg.m_eta = S.cfg.m_eta := rfl

theorem cc_ev (S : SimpCtx) (b : Bool) : (eqCond S b).cfg.m_eval = S.cfg.m_eval := rfl

theorem cc_unf (S : SimpCtx) (b : Bool) : (eqCond S b).cfg.m_unfold = S.cfg.m_unfold := rfl

theorem cc_memo (S : SimpCtx) (b : Bool) : (eqCond S b).cfg.m_memoize = S.cfg.m_memoize := rfl

theorem cc_maxs (S : SimpCtx) (b : Bool) :
    (eqCond S b).cfg.m_max_steps = S.cfg.m_max_steps := rfl

theorem cc_isArrow (S : SimpCtx) (b : Bool) (e : Expr) : isArrow (eqCond S b) e = isArrow S e :=
  rfl

theorem cc_isCast (S : SimpCtx) (b : Bool) (e : Expr) : isCast (eqCond S b) e = isCast S e := rfl

theorem cc_isEtaTarget (S : SimpCtx) (b : Bool) (e : Expr) :
    isEtaTarget (eqCond S b) e = isEtaTarget S e := rfl

theorem cc_evaluateApp (S : SimpCtx) (b : Bool) (e : Expr) :
    evaluateApp (eqCond S b) e = evaluateApp S e := rfl

theorem cc_mkTransResult4 (S : SimpCtx) (b : Bool) (ctx : CtxE) (a : Expr) (b_res : Result)
    (c H : Expr) : mkTransResult4 (eqCond S b) ctx a b_res c H = mkTransResult4 S ctx a b_res c H :=
  rfl

theorem cc_mkTransResult3 (S : SimpCtx) (b : Bool) (ctx : CtxE) (a : Expr) (b_res c_res : Result) :
    mkTransResult3 (eqCond S b) ctx a b_res c_res = mkTransResult3 S ctx a b_res c_res := rfl

theorem cc_ensureHomogeneous (S : SimpCtx) (b : Bool) (ctx : CtxE) (lhs : Expr) (rhs : Result) :
    ensureHomogeneous (eqCond S b) ctx lhs rhs = ensureHomogeneous S ctx lhs rhs := rfl

theorem cc_getProofE (S : SimpCtx) (b : Bool) (ctx : CtxE) (rhs : Result) :
    getProofE (eqCond S b) ctx rhs = getProofE S ctx rhs := rfl

theorem cc_castResult (S : SimpCtx) (b : Bool) (ctx : CtxE) (e A B : Expr) (ra : Result) :
    castResult (eqCond S b) ctx e A B ra = castResult S ctx e A B ra := rfl

theorem cc_sadPush (S : SimpCtx) (b : Bool) (ft nft a : Expr) (res_a : Result) (acc : SadAcc) :
    sadPush (eqCond S b) ft nft a res_a acc = sadPush S ft nft a res_a acc := rfl

theorem cc_insertRS (S : SimpCtx) (b : Bool) (rs : RuleSet) (fact pf : Expr) :
    insertRS (eqCond S b) rs fact pf = insertRS S rs fact pf := rfl

theorem cc_saveR (S : SimpCtx) (b : Bool) (e : Expr) (x : MS Result) :
    saveR (eqCond S b) e x = saveR S e x := rfl

theorem cc_mkCongr1Th (S : SimpCtx) (b : Bool) (ft f nf a H : Expr) :
    mkCongr1Th (eqCond S b) ft f nf a H = mkCongr1Th S ft f nf a H := rfl

theorem cc_mkCongr2Th (S : SimpCtx) (b : Bool) (ctx : CtxE) (ft a na f H : Expr) :
    mkCongr2Th (eqCond S b) ctx ft a na f H = mkCongr2Th S ctx ft a na f H := rfl

theorem cc_mkCongrThm (S : SimpCtx) (b : Bool) (ctx : CtxE) (ft f nf a na Hf Ha : Expr) :
    mkCongrThm (eqCond S b) ctx ft f nf a na Hf Ha = mkCongrThm S ctx ft f nf a na Hf Ha := rfl

theorem cc_mkHCongrTh (S : SimpCtx) (b : Bool) (ctx : CtxE) (ft nft f nf a na Hf Ha : Expr)
    (hq : Bool) : mkHCongrTh (eqCond S b) ctx ft nft f nf a na Hf Ha hq
      = mkHCongrTh S ctx ft nft f nf a na Hf Ha hq := rfl

theorem cc_sadProofLoop (S : SimpCtx) (b : Bool) (ctx : CtxE) (e : Expr) (na : List Expr)
    (prs : List (Option Expr)) (fts nfts : List Expr) (hqs : List Bool) :
    ∀ k i pr hq, sadProofLoop (eqCond S b) ctx e na prs fts nfts hqs k i pr hq
      = sadProofLoop S ctx e na prs fts nfts hqs k i pr hq := by
  intro k
  induction k with
  | zero => intro i pr hq; rfl
  | succ k ih =>
    intro i pr hq
    simp only [sadProofLoop, cc_o, cc_mkHCongrTh, cc_mkCongrThm, cc_mkCongr1Th, ih]

theorem cc_mkCongrProofD (S : SimpCtx) (b : Bool) (ctx : CtxE) (e : Expr) (acc : SadAcc) :
    mkCongrProofD (eqCond S b) ctx e acc = mkCongrProofD S ctx e acc := by
  simp only [mkCongrProofD, cc_o, cc_isArrow, cc_mkHCongrTh, cc_mkCongr2Th, cc_sadProofLoop]

theorem cc_condPremises (S : SimpCtx) (b : Bool) (sfn sfn' : SimpFn)
    (hsf : ∀ e st, sfn' e st = sfn e st) :
    ∀ subst ceq acc st, condPremises (eqCond S b) sfn' subst ceq acc st
      = condPremises S sfn subst ceq acc st := by
  intro subst
  induction subst with
  | nil => intro ceq acc st; rfl
  | cons hd rest ih =>
    intro ceq acc st
    cases hd with
    | none => simp only [condPremises, cc_o, cc_pe, cc_isArrow, hsf, ih]
    | some v => simp only [condPremises, cc_o, cc_pe, ih]

theorem cc_checkRule (S : SimpCtx) (b : Bool) (sfn sfn' : SimpFn)
    (hsf : ∀ e st, sfn' e st = sfn e st) (target : Expr) (rule : Rule) (st : SimpState) :
    checkRule (eqCond S b) sfn' target rule st = checkRule S sfn target rule st := by
  simp only [checkRule, cc_o, cc_pe, cc_condPremises S b sfn sfn' hsf]

theorem cc_findMatchAux (S : SimpCtx) (b : Bool) (sfn sfn' : SimpFn)
    (hsf : ∀ e st, sfn' e st = sfn e st) (target : Expr) :
    ∀ rules st, findMatchAux (eqCond S b) sfn' target rules st
      = findMatchAux S sfn target rules st := by
  intro rules
  induction rules with
  | nil => intro st; rfl
  | cons rule rest ih =>
    intro st
    simp only [findMatchAux, cc_checkRule S b sfn sfn' hsf, ih]

theorem cc_rwSets (S : SimpCtx) (b : Bool) (sfn sfn' : SimpFn)
    (hsf : ∀ e st, sfn' e st = sfn e st) (lhs : Expr) (rhs : Result) (target : Expr) :
    ∀ sets st, rwSets (eqCond S b) sfn' lhs rhs target sets st
      = rwSets S sfn lhs rhs target sets st := by
  intro sets
  induction sets generalizing rhs with
  | nil =>
    intro st
    simp only [rwSets, cc_sp, cc_mkTransResult3, hsf]
  | cons rs rest ih =>
    intro st
    simp only [rwSets, cc_findMatchAux S b sfn sfn' hsf, cc_sp, cc_mkTransResult4,
      cc_mkTransResult3, hsf, ih]

theorem cc_rewriteE (S : SimpCtx) (b : Bool) (sfn sfn' : SimpFn)
    (hsf : ∀ e st, sfn' e st = sfn e st) (lhs : Expr) (rhs : Result) (st : SimpState) :
    rewriteE (eqCond S b) sfn' lhs rhs st = rewriteE S sfn lhs rhs st := by
  simp only [rewriteE, cc_rwSets S b sfn sfn' hsf]

theorem cc_rewriteApp (S : SimpCtx) (b : Bool) (sfn sfn' : SimpFn)
    (hsf : ∀ e st, sfn' e st = sfn e st) (lhs : Expr) (rhs : Result) (st : SimpState) :
    rewriteApp (eqCond S b) sfn' lhs rhs st = rewriteApp S sfn lhs rhs st := by
  simp only [rewriteApp, cc_evaluateApp, cc_o, cc_beta, cc_rewriteE S b sfn sfn' hsf]

theorem cc_rewriteLambda (S : SimpCtx) (b : Bool) (sfn sfn' : SimpFn)
    (hsf : ∀ e st, sfn' e st = sfn e st) (lhs : Expr) (rhs : Result) (st : SimpState) :
    rewriteLambda (eqCond S b) sfn' lhs rhs st = rewriteLambda S sfn lhs rhs st := by
  simp only [rewriteLambda, cc_eta, cc_isEtaTarget, cc_o, cc_pe, cc_mkTransResult4,
    cc_rewriteE S b sfn sfn' hsf]

theorem cc_sadLoop (S : SimpCtx) (b : Bool) (sfn sfn' : SimpFn)
    (hsf : ∀ e st, sfn' e st = sfn e st) :
    ∀ args f_type new_f_type acc st, sadLoop (eqCond S b) sfn' args f_type new_f_type acc st
      = sadLoop S sfn args f_type new_f_type acc st := by
  intro args
  induction args with
  | nil => intro f_type new_f_type acc st; rfl
  | cons a rest ih =>
    intro f_type new_f_type acc st
    simp only [sadLoop, cc_o, cc_isArrow, cc_sadPush, hsf, ih]

theorem cc_simplifyAppDefault (S : SimpCtx) (b : Bool) (sfn sfn' : SimpFn)
    (hsf : ∀ e st, sfn' e st = sfn e st) (e : Expr) (st : SimpState) :
    simplifyAppDefault (eqCond S b) sfn' e st = simplifyAppDefault S sfn e st := by
  simp only [simplifyAppDefault, cc_o, cc_pe, hsf, cc_sadLoop S b sfn sfn' hsf,
    cc_mkCongrProofD, cc_rewriteApp S b sfn sfn' hsf]

theorem cc_sacLoop (S : SimpCtx) (b : Bool) (sfn sfn' : SimpFn)
    (hsf : ∀ e st, sfn' e st = sfn e st) (e : Expr) :
    ∀ infos new_args proof_args changed st,
      sacLoop (eqCond S b) sfn' e infos new_args proof_args changed st
        = sacLoop S sfn e infos new_args proof_args changed st := by
  intro infos
  induction infos with
  | nil => intro new_args proof_args changed st; rfl
  | cons info rest ih =>
    intro new_args proof_args changed st
    simp only [sacLoop, cc_pe, cc_o, cc_ensureHomogeneous, cc_getProofE, cc_insertRS,
      cc_simplifyAppDefault S b sfn sfn' hsf, hsf, ih]

theorem cc_simplifyAppCongr (S : SimpCtx) (b : Bool) (sfn sfn' : SimpFn)
    (hsf : ∀ e st, sfn' e st = sfn e st) (e : Expr) (cg : CongrThm) (st : SimpState) :
    simplifyAppCongr (eqCond S b) sfn' e cg st = simplifyAppCongr S sfn e cg st := by
  simp only [simplifyAppCongr, cc_pe, cc_sacLoop S b sfn sfn' hsf,
    cc_rewriteApp S b sfn sfn' hsf]

theorem cc_simplifyApp (S : SimpCtx) (b : Bool) (sfn sfn' : SimpFn)
    (hsf : ∀ e st, sfn' e st = sfn e st) (e : Expr) (st : SimpState) :
    simplifyApp (eqCond S b) sfn' e st = simplifyApp S sfn e st := by
  simp only [simplifyApp, cc_o, cc_isCast, cc_pe, cc_ctxl, cc_thms, cc_castResult, hsf,
    cc_simplifyAppCongr S b sfn sfn' hsf, cc_simplifyAppDefault S b sfn sfn' hsf]

theorem cc_simplifyConstant (S : SimpCtx) (b : Bool) (sfn sfn' : SimpFn)
    (hsf : ∀ e st, sfn' e st = sfn e st) (e : Expr) (st : SimpState) :
    simplifyConstant (eqCond S b) sfn' e st = simplifyConstant S sfn e st := by
  cases e <;>
    simp only [simplifyConstant, cc_unf, cc_ev, cc_o, cc_sp, hsf,
      cc_rewriteE S b sfn sfn' hsf]

theorem cc_simplifyLambda (S : SimpCtx) (b : Bool) (sfn sfn' : SimpFn)
    (hsf : ∀ e st, sfn' e st = sfn e st) (e : Expr) (st : SimpState) :
    simplifyLambda (eqCond S b) sfn' e st = simplifyLambda S sfn e st := by
  simp only [simplifyLambda, cc_o, cc_pe, hsf, cc_rewriteLambda S b sfn sfn' hsf]

theorem cc_simplifyPi (S : SimpCtx) (b : Bool) (sfn sfn' : SimpFn)
    (hsf : ∀ e st, sfn' e st = sfn e st) (e : Expr) (st : SimpState) :
    simplifyPi (eqCond S b) sfn' e st = simplifyPi S sfn e st := by
  simp only [simplifyPi, cc_o, cc_pe, hsf, cc_rewriteE S b sfn sfn' hsf]

theorem cc_simplifyStep (S : SimpCtx) (b : Bool) (sfn sfn' : SimpFn)
    (hsf : ∀ e st, sfn' e st = sfn e st) (e : Expr) (st : SimpState) :
    simplifyStep (eqCond S b) sfn' e st = simplifyStep S sfn e st := by
  cases e <;>
    simp only [simplifyStep, cc_saveR, cc_o, hsf,
      cc_simplifyConstant S b sfn sfn' hsf, cc_simplifyApp S b sfn sfn' hsf,
      cc_simplifyLambda S b sfn sfn' hsf, cc_simplifyPi S b sfn sfn' hsf]

theorem cc_simplifyE (S : SimpCtx) (b : Bool) :
    ∀ fuel e st, simplifyE (eqCond S b) fuel e st = simplifyE S fuel e st := by
  intro fuel
  induction fuel with
  | zero => intro e st; rfl
  | succ f ih =>
    intro e st
    simp only [simplifyE, cc_maxs, cc_memo, cc_o,
      cc_simplifyStep S b (simplifyE S f) (simplifyE (eqCond S b) f) ih]

theorem cc_initRS (cfg : Cfg) (b : Bool) (caller : List RuleSet) :
    initRuleSets { cfg with m_conditional := b } caller = initRuleSets cfg caller := rfl

theorem cc_mkSimpCtx (O : Oracle) (cfg : Cfg) (b : Bool) (caller : List RuleSet) :
    mkSimpCtx O { cfg with m_conditional := b } caller
      = eqCond (mkSimpCtx O cfg caller) b := rfl

theorem cc_simplifierMain (O : Oracle) (cfg : Cfg) (b : Bool) (caller : List RuleSet)
    (fuel : Nat) (e : Expr) (ctx : CtxE) :
    simplifierMain O { cfg with m_conditional := b } caller fuel e ctx
      = simplifierMain O cfg caller fuel e ctx := by
  simp only [simplifierMain, cc_mkSimpCtx, cc_initRS, cc_simplifyE, cc_getProofE]

/-- C1: the `simplifier.conditional` flag is stored by `set_options` but never
consulted by the rewrite engine.  First conjunct: replacing the stored flag by
any value leaves the public operation unchanged on every oracle, configuration,
rule-set vector, fuel, input and context (proved by a congruence induction over
the whole engine).  Second conjunct: with `conditional := false` a rule whose
higher-order match leaves an unbound propositional premise still fires through
the conditional-rewriting branch, the premise being discharged by recursively
simplifying it to `True`. -/
theorem C1_conditional_flag_dead :
    (∀ (O : Oracle) (cfg : Cfg) (b : Bool) (caller : List RuleSet) (fuel : Nat) (e : Expr)
        (ctx : CtxE),
      simplifierMain O { cfg with m_conditional := b } caller fuel e ctx
        = simplifierMain O cfg caller fuel e ctx)
    ∧ (simplifierMain Oc1 cfgC1 [rsC1] 5 (tname "t") []).1
      = .ok (tname "s", Expr.app [tname "refl", Expr.type, tname "s"]) :=
  ⟨cc_simplifierMain, rfl⟩

/-- C2: when a contextual hypothesis is installed with proof generation
disabled, the source skips the cache reset/restore: a result cached during
the recursive simplification under the extended rule set 0 (here the entry
for `value 7`) survives into the final state, while the identical run with
proofs enabled (which does reset and restore the cache) retains no such
entry. -/
theorem C2_cache_leak_without_proofs :
    lookupC (simplifierMain Oc2 cfgC2 [rsC2] 10 eC2 []).2.m_cache (Expr.value 7)
      = some ⟨Expr.value 7, none, false⟩
    ∧ lookupC (simplifierMain Oc2 { cfgC2 with m_proofs_enabled := true }
        [rsC2] 10 eC2 []).2.m_cache (Expr.value 7) = none := ⟨rfl, rfl⟩

/-- C6 (counterexample): with proof generation disabled and heterogeneous
equality absent, the Pi spine is not advanced, so the arrow test for argument
position 2 still looks at `ensure_pi` of the head's type; at this input the
function type at position 2 (`abstBody ftC6`) is a dependent Pi, yet the
argument (a Let) is recursively simplified (inlined to `value 5`), contrary
to the claim's "only if the current function type at that position is a
non-dependent arrow". -/
theorem C6_counterexample_dependent_arg_simplified :
    Oc6.hasHeq = false
    ∧ isArrow (mkSimpCtx Oc6 cfgC6 []) (abstBody ftC6) = false
    ∧ (simplifierMain Oc6 cfgC6 [] 10 eC6 []).1
        = .ok (Expr.app [tname "f", Expr.value 1, Expr.value 5],
               Expr.app [tname "refl", Expr.type,
                 Expr.app [tname "f", Expr.value 1, Expr.value 5]]) :=
  ⟨rfl, rfl, rfl⟩

/-- C6 (amended): in the argument loop of `simplify_app_default` an argument
is recursively simplified iff heterogeneous equality is imported or the
loop's current function type (advanced along the Pi spine only when proof
generation is enabled) is a non-dependent arrow after `ensure_pi`; otherwise
the argument is pushed unchanged with a trivial result and the state is
untouched. -/
theorem C6_arg_simplified_iff (S : SimpCtx) (sfn : SimpFn) (a : Expr) (rest : List Expr)
    (f_type new_f_type : Expr) (acc : SadAcc) (st : SimpState) :
    ((S.o.hasHeq || isArrow S (S.o.ensurePi st.m_ctx f_type)) = false →
      sadLoop S sfn (a :: rest) f_type new_f_type acc st
        = (let step := sadPush S (S.o.ensurePi st.m_ctx f_type) new_f_type a ⟨a, none, false⟩ acc
           sadLoop S sfn rest step.2.1 step.2.2 step.1 st)
      ∧ (sadPush S (S.o.ensurePi st.m_ctx f_type) new_f_type a
          ⟨a, none, false⟩ acc).1.new_args = acc.new_args ++ [a])
    ∧ ((S.o.hasHeq || isArrow S (S.o.ensurePi st.m_ctx f_type)) = true →
      sadLoop S sfn (a :: rest) f_type new_f_type acc st
        = bindO (sfn a st) fun res_a st' =>
            (let acc1 := if res_a.out == a then acc else { acc with changed := true }
             let step := sadPush S (S.o.ensurePi st.m_ctx f_type) new_f_type a res_a acc1
             sadLoop S sfn rest step.2.1 step.2.2 step.1 st')) := by
  constructor
  · intro hcond
    constructor
    · simp only [sadLoop]
      rw [if_neg (by rw [hcond]; simp)]
    · unfold sadPush
      dsimp only
      split <;> rfl
  · intro hcond
    simp only [sadLoop]
    rw [if_pos hcond]

theorem C6_arg_simplified_iff_witness :
    sadLoop (mkSimpCtx Oc6 cfgC6 []) sfn0 [Expr.value 1] ftC6 exprDefault
        ⟨[tname "f"], [], [], [], [], false⟩ stw
      = bindO (sfn0 (Expr.value 1) stw) fun res_a st' =>
          (let acc1 := if res_a.out == Expr.value 1 then
              (⟨[tname "f"], [], [], [], [], false⟩ : SadAcc)
            else { (⟨[tname "f"], [], [], [], [], false⟩ : SadAcc) with changed := true }
           let step := sadPush (mkSimpCtx Oc6 cfgC6 [])
             ((mkSimpCtx Oc6 cfgC6 []).o.ensurePi stw.m_ctx ftC6) exprDefault
             (Expr.value 1) res_a acc1
           sadLoop (mkSimpCtx Oc6 cfgC6 []) sfn0 [] step.2.1 step.2.2 step.1 st') :=
  (C6_arg_simplified_iff (mkSimpCtx Oc6 cfgC6 []) sfn0 (Expr.value 1) [] ftC6 exprDefault
    ⟨[tname "f"], [], [], [], [], false⟩ stw).2 rfl
